import Mathlib

/-!
Verification of the voxel-sandbox engine core (`src/main.rs`).

The Rust source is shallowly embedded below:

* machine integers are `Int`/`Nat` with explicit wrap-around (`% 2^64`,
  `% 2^32`) where the Rust code can wrap, and a saturating cast where
  Rust saturates (`f32 as i32`);
* the `i32 as f32` conversion is modelled exactly by `roundF32`
  (round-to-nearest-even onto a 24-bit significand), division of the
  resulting float by `16.0` and `floor()` are exact in IEEE `f32`, so the
  composite is `Int.fdiv (roundF32 x) 16`;
* `Vec<T>` becomes `List T`; indexed assignment becomes `List.set`
  (guarded by the same bounds checks the source performs);
* transcendental `f32` computations that no claim inspects numerically
  (terrain `sin`/`cos` heights, camera trig and normalisation) are
  abstracted as oracle parameters ranging over `ℚ`; every `f32` value is
  a rational number, so the actual values are instances of the oracles;
* the fixed-step ray march of the block editor is embedded as a fold
  over the list of integer coordinates the march samples, with the
  `hit` flag of the source loop carried explicitly.
-/

namespace VoxelGame

/-! ## Generic fold lemmas

Pointwise reasoning about loops that repeatedly overwrite parts of a
state: an observation `obs` untouched by every step is preserved; if
exactly one step determines the observation and later steps leave it
alone, that step's value survives to the end.
-/

theorem foldl_invariant {σ β : Type} (P : σ → Prop) (step : σ → β → σ) :
    ∀ (xs : List β) (s : σ), (∀ s b, b ∈ xs → P s → P (step s b)) → P s →
      P (xs.foldl step s)
  | [], _, _, hs => hs
  | b :: xs, s, h, hs =>
    foldl_invariant P step xs (step s b)
      (fun s' b' hb' => h s' b' (List.mem_cons_of_mem _ hb'))
      (h s b (List.mem_cons_self _ _) hs)

theorem foldl_obs_ne {σ τ β : Type} (obs : σ → τ) (step : σ → β → σ) :
    ∀ (xs : List β) (s : σ), (∀ s b, b ∈ xs → obs (step s b) = obs s) →
      obs (xs.foldl step s) = obs s
  | [], _, _ => rfl
  | b :: xs, s, h => by
    rw [List.foldl_cons,
      foldl_obs_ne obs step xs (step s b)
        (fun s' b' hb' => h s' b' (List.mem_cons_of_mem _ hb')),
      h s b (List.mem_cons_self _ _)]

theorem foldl_obs_last {σ τ β : Type} (obs : σ → τ) (I : σ → Prop)
    (step : σ → β → σ) (xs₁ : List β) (b0 : β) (xs₂ : List β) (w : τ)
    (hI : ∀ s b, I s → I (step s b))
    (hwrite : ∀ s, I s → obs (step s b0) = w)
    (hpost : ∀ s b, b ∈ xs₂ → obs (step s b) = obs s)
    (s0 : σ) (hs0 : I s0) :
    obs ((xs₁ ++ b0 :: xs₂).foldl step s0) = w := by
  rw [List.foldl_append, List.foldl_cons,
    foldl_obs_ne obs step xs₂ _ hpost]
  exact hwrite _ (foldl_invariant I step xs₁ s0 (fun s b _ => hI s b) hs0)

theorem foldl_range_obs_ne {σ τ : Type} (obs : σ → τ) (step : σ → Nat → σ)
    (n : Nat) (s : σ) (h : ∀ s j, j < n → obs (step s j) = obs s) :
    obs ((List.range n).foldl step s) = obs s :=
  foldl_obs_ne obs step (List.range n) s
    (fun s' j hj => h s' j (List.mem_range.mp hj))

theorem foldl_range_obs_last {σ τ : Type} (obs : σ → τ) (I : σ → Prop)
    (step : σ → Nat → σ) (j0 : Nat) (w : τ)
    (hI : ∀ s j, I s → I (step s j))
    (hwrite : ∀ s, I s → obs (step s j0) = w) :
    ∀ (n : Nat), j0 < n →
      (∀ s j, j < n → j ≠ j0 → obs (step s j) = obs s) →
      ∀ (s0 : σ), I s0 → obs ((List.range n).foldl step s0) = w
  | 0, hj0, _, _, _ => absurd hj0 (Nat.not_lt_zero _)
  | n + 1, hj0, hne, s0, hs0 => by
    rw [List.range_succ, List.foldl_append, List.foldl_cons, List.foldl_nil]
    by_cases hm : j0 = n
    · subst hm
      exact hwrite _ (foldl_invariant I step (List.range j0) s0
        (fun s b _ => hI s b) hs0)
    · have hj0n : j0 < n := by omega
      rw [hne _ n (Nat.lt_succ_self n) (fun hc => hm hc.symm)]
      exact foldl_range_obs_last obs I step j0 w hI hwrite n hj0n
        (fun s j hj => hne s j (Nat.lt_succ_of_lt hj)) s0 hs0

/-! ## Exact model of the `i32 as f32` / `f32::floor` / `as i32` pipeline

`World::get_voxel`/`set_voxel` and the ray-cast editor compute
`(x as f32 / 16.0).floor() as i32`.  `i32 as f32` rounds to nearest,
ties to even, onto a 24-bit significand; dividing the result by `16.0`
only changes the exponent, `floor` of the quotient is exactly
`Int.fdiv` of the rounded integer by 16, and the final `as i32`
saturates (the values here never leave the `i32` range, but the cast is
modelled faithfully).
-/

/-- Base-2 logarithm by fuel-bounded structural recursion (so that the
kernel can evaluate it); agrees with the mathematical `log2` whenever
`n ≤ fuel`. -/
def log2fuel : Nat → Nat → Nat
  | 0, _ => 0
  | fuel + 1, n => if 2 ≤ n then log2fuel fuel (n / 2) + 1 else 0

theorem log2fuel_spec : ∀ (fuel n : Nat), n ≤ fuel → 1 ≤ n →
    2 ^ log2fuel fuel n ≤ n ∧ n < 2 ^ (log2fuel fuel n + 1)
  | 0, _, hle, h1 => by omega
  | fuel + 1, n, hle, h1 => by
    rw [log2fuel]
    by_cases h2 : 2 ≤ n
    · rw [if_pos h2]
      have hrec := log2fuel_spec fuel (n / 2) (by omega) (by omega)
      rcases hrec with ⟨hlo, hhi⟩
      constructor
      · calc 2 ^ (log2fuel fuel (n / 2) + 1)
            = 2 * 2 ^ log2fuel fuel (n / 2) := by ring
          _ ≤ 2 * (n / 2) := by omega
          _ ≤ n := by omega
      · have : n < 2 * (n / 2) + 2 := by omega
        calc n < 2 * (n / 2) + 2 := this
          _ ≤ 2 * 2 ^ (log2fuel fuel (n / 2) + 1) := by omega
          _ = 2 ^ (log2fuel fuel (n / 2) + 1 + 1) := by ring

    · rw [if_neg h2]
      omega

/-- Round a natural number to the nearest `f32`-representable value
(24-bit significand, ties to even). Exact below `2^24`. -/
def roundF32nat (n : Nat) : Nat :=
  if n < 2 ^ 24 then n
  else
    let k := log2fuel n n - 23
    let q := n / 2 ^ k
    let r := n % 2 ^ k
    let half := 2 ^ (k - 1)
    (if half < r ∨ (r = half ∧ q % 2 = 1) then q + 1 else q) * 2 ^ k

/-- `i32 as f32` (also covers any integer-valued rounding to `f32`). -/
def roundF32 (x : Int) : Int :=
  if x < 0 then -(roundF32nat x.natAbs : Int) else (roundF32nat x.natAbs : Int)

/-- Saturating `f32 as i32` cast, restricted to integral inputs. -/
def satI32 (v : Int) : Int :=
  max (-(2 ^ 31)) (min (2 ^ 31 - 1) v)

/-- The chunk coordinate the source derives from a world coordinate:
`(x as f32 / 16.0).floor() as i32`. -/
def chunkCoord (x : Int) : Int :=
  satI32 ((roundF32 x).fdiv 16)

/-- The local coordinate the source derives: `x.rem_euclid(16) as usize`. -/
def localCoord (x : Int) : Nat :=
  (x % 16).toNat

theorem roundF32nat_small {n : Nat} (h : n ≤ 2 ^ 24) : roundF32nat n = n := by
  rcases Nat.lt_or_ge n (2 ^ 24) with h' | h'
  · rw [roundF32nat, if_pos h']
  · have hn : n = 2 ^ 24 := le_antisymm h h'
    subst hn
    decide

theorem roundF32_small {x : Int} (h : x.natAbs ≤ 2 ^ 24) : roundF32 x = x := by
  unfold roundF32
  rw [roundF32nat_small h]
  rcases Int.lt_or_le x 0 with hx | hx
  · simp only [if_pos hx]
    omega
  · simp only [if_neg (Int.not_lt.mpr hx)]
    omega

theorem chunkCoord_eq_fdiv {x : Int} (h : x.natAbs ≤ 2 ^ 24) :
    chunkCoord x = x.fdiv 16 := by
  unfold chunkCoord satI32
  rw [roundF32_small h]
  have h16 : (0 : Int) < 16 := by decide
  have hid : x.fdiv 16 = x / 16 := Int.fdiv_eq_ediv x (by decide)
  have hmod := Int.emod_add_ediv x 16
  have hm0 : 0 ≤ x % 16 := Int.emod_nonneg x (by decide)
  have hm1 : x % 16 < 16 := Int.emod_lt_of_pos x h16
  have hxa : -(2 ^ 24 : Int) ≤ x ∧ x ≤ 2 ^ 24 := by omega
  rw [hid]
  omega

/-! ## Voxel, Chunk, World (`src/main.rs` lines 27–160) -/

/-- The closed enumeration of voxel types. -/
inductive VoxelType : Type
  | air
  | dirt
  | grass
  | stone
  | wood
  | leaves
  | light
deriving DecidableEq, Repr

/-- A single cell holding one `VoxelType`. -/
structure Voxel : Type where
  voxel_type : VoxelType
deriving DecidableEq, Repr

/-- A chunk: a dense list of `16*16*16` voxels plus its chunk-space
position. -/
structure Chunk : Type where
  voxels : List Voxel
  position : Int × Int × Int
deriving DecidableEq, Repr

/-- `Chunk::new`: 4096 cells, all `Air`. -/
def Chunk.new (position : Int × Int × Int) : Chunk :=
  { voxels := List.replicate (16 * 16 * 16) { voxel_type := VoxelType.air }
    position := position }

/-- `Chunk::get_voxel`: bounds-checked read; out-of-range coordinates
read `voxels[0]` (the source comment calls this "air for out of
bounds").  The `getD` default is never reached on the 4096-cell chunks
the program builds; it stands in for the indexing the source performs. -/
def Chunk.get_voxel (c : Chunk) (x y z : Nat) : Voxel :=
  if x < 16 ∧ y < 16 ∧ z < 16 then
    c.voxels.getD (y * 16 * 16 + z * 16 + x) { voxel_type := VoxelType.air }
  else
    c.voxels.getD 0 { voxel_type := VoxelType.air }

/-- `Chunk::set_voxel`: bounds-checked write; out-of-range writes are
silently ignored. -/
def Chunk.set_voxel (c : Chunk) (x y z : Nat) (voxel_type : VoxelType) : Chunk :=
  if x < 16 ∧ y < 16 ∧ z < 16 then
    { c with voxels := c.voxels.set (y * 16 * 16 + z * 16 + x) { voxel_type } }
  else
    c

/-- The world: a flat collection of chunks. -/
structure World : Type where
  chunks : List Chunk
deriving DecidableEq, Repr

/-- `World::get_voxel`: map to chunk/local coordinates, scan for the
first chunk with a matching position, `Air` when none matches. -/
def World.get_voxel (w : World) (x y z : Int) : VoxelType :=
  let key := (chunkCoord x, chunkCoord y, chunkCoord z)
  match w.chunks.find? (fun c => decide (c.position = key)) with
  | some c => (c.get_voxel (localCoord x) (localCoord y) (localCoord z)).voxel_type
  | none => VoxelType.air

/-- The chunk-list update performed by `World::set_voxel`: write into
the first chunk with a matching position; if none matches, append a
fresh chunk (all `Air`) carrying the write. -/
def setInChunks (key : Int × Int × Int) (lx ly lz : Nat) (t : VoxelType) :
    List Chunk → List Chunk
  | [] => [(Chunk.new key).set_voxel lx ly lz t]
  | c :: rest =>
    if c.position = key then c.set_voxel lx ly lz t :: rest
    else c :: setInChunks key lx ly lz t rest

/-- `World::set_voxel`. -/
def World.set_voxel (w : World) (x y z : Int) (voxel_type : VoxelType) : World :=
  let key := (chunkCoord x, chunkCoord y, chunkCoord z)
  { chunks := setInChunks key (localCoord x) (localCoord y) (localCoord z)
      voxel_type w.chunks }

/-- Well-formedness: every chunk the program ever builds has exactly
4096 cells (`Chunk::new` creates 4096 and `set_voxel` preserves the
length); Rust's `Vec` indexing relies on this invariant. -/
def World.WF (w : World) : Prop :=
  ∀ c ∈ w.chunks, c.voxels.length = 16 * 16 * 16

theorem Chunk.length_new (p : Int × Int × Int) :
    (Chunk.new p).voxels.length = 16 * 16 * 16 :=
  List.length_replicate _ _

theorem Chunk.length_set_voxel (c : Chunk) (x y z : Nat) (t : VoxelType) :
    (c.set_voxel x y z t).voxels.length = c.voxels.length := by
  unfold Chunk.set_voxel
  split <;> simp

theorem Chunk.position_set_voxel (c : Chunk) (x y z : Nat) (t : VoxelType) :
    (c.set_voxel x y z t).position = c.position := by
  unfold Chunk.set_voxel
  split <;> rfl

theorem Chunk.get_set_voxel_self (c : Chunk) (x y z : Nat) (t : VoxelType)
    (hx : x < 16) (hy : y < 16) (hz : z < 16)
    (hlen : c.voxels.length = 16 * 16 * 16) :
    (c.set_voxel x y z t).get_voxel x y z = { voxel_type := t } := by
  have hin : x < 16 ∧ y < 16 ∧ z < 16 := ⟨hx, hy, hz⟩
  have hidx : y * 16 * 16 + z * 16 + x < 16 * 16 * 16 := by omega
  rw [Chunk.set_voxel, if_pos hin, Chunk.get_voxel, if_pos hin]
  simp only [List.getD_eq_getElem?_getD]
  rw [List.getElem?_set_eq_of_lt _ (by omega)]
  rfl

theorem localCoord_lt (x : Int) : localCoord x < 16 := by
  unfold localCoord
  have h0 : 0 ≤ x.emod 16 := Int.emod_nonneg x (by decide)
  have h1 : x.emod 16 < 16 := Int.emod_lt_of_pos x (by decide)
  omega

theorem find?_setInChunks (key : Int × Int × Int) (lx ly lz : Nat)
    (t : VoxelType) (hlx : lx < 16) (hly : ly < 16) (hlz : lz < 16) :
    ∀ (l : List Chunk), (∀ c ∈ l, c.voxels.length = 16 * 16 * 16) →
      ∃ c, (setInChunks key lx ly lz t l).find?
          (fun c => decide (c.position = key)) = some c ∧
        c.get_voxel lx ly lz = { voxel_type := t }
  | [], _ => by
    refine ⟨(Chunk.new key).set_voxel lx ly lz t, ?_, ?_⟩
    · rw [setInChunks, List.find?_cons]
      have hpos : ((Chunk.new key).set_voxel lx ly lz t).position = key := by
        rw [Chunk.position_set_voxel]; rfl
      simp [hpos]
    · exact Chunk.get_set_voxel_self _ lx ly lz t hlx hly hlz (Chunk.length_new key)
  | c :: rest, hwf => by
    by_cases hc : c.position = key
    · refine ⟨c.set_voxel lx ly lz t, ?_, ?_⟩
      · rw [setInChunks, if_pos hc, List.find?_cons]
        have hpos : (c.set_voxel lx ly lz t).position = key := by
          rw [Chunk.position_set_voxel]; exact hc
        simp [hpos]
      · exact Chunk.get_set_voxel_self _ lx ly lz t hlx hly hlz
          (hwf c (List.mem_cons_self _ _))
    · obtain ⟨c', hfind, hget⟩ := find?_setInChunks key lx ly lz t hlx hly hlz
        rest (fun c' hc' => hwf c' (List.mem_cons_of_mem _ hc'))
      refine ⟨c', ?_, hget⟩
      rw [setInChunks, if_neg hc, List.find?_cons]
      simp only [hc, decide_False]
      exact hfind

theorem setInChunks_append (key : Int × Int × Int) (lx ly lz : Nat)
    (t : VoxelType) :
    ∀ (l : List Chunk), (∀ c ∈ l, c.position ≠ key) →
      setInChunks key lx ly lz t l
        = l ++ [(Chunk.new key).set_voxel lx ly lz t]
  | [], _ => rfl
  | c :: rest, h => by
    rw [setInChunks, if_neg (h c (List.mem_cons_self _ _)),
      setInChunks_append key lx ly lz t rest
        (fun c' hc' => h c' (List.mem_cons_of_mem _ hc'))]
    rfl

/-- C1: for every (well-formed) world state and every world coordinate
triple and voxel type, `set_voxel` followed by `get_voxel` at the same
coordinates returns the written type (this covers negative coordinates
and the `wx = -1` / `wx = 0` chunk boundary, since the quantifiers range
over all integers); and when no chunk with the derived chunk coordinate
exists, `set_voxel` appends a fresh all-`Air` chunk carrying the write
at the end of the chunk list. -/
theorem world_set_get_roundtrip (w : World) (x y z : Int) (t : VoxelType)
    (hwf : w.WF) :
    (w.set_voxel x y z t).get_voxel x y z = t ∧
    ((∀ c ∈ w.chunks, c.position ≠ (chunkCoord x, chunkCoord y, chunkCoord z)) →
      (w.set_voxel x y z t).chunks = w.chunks ++
        [(Chunk.new (chunkCoord x, chunkCoord y, chunkCoord z)).set_voxel
          (localCoord x) (localCoord y) (localCoord z) t]) := by
  constructor
  · obtain ⟨c, hfind, hget⟩ := find?_setInChunks
      (chunkCoord x, chunkCoord y, chunkCoord z)
      (localCoord x) (localCoord y) (localCoord z) t
      (localCoord_lt x) (localCoord_lt y) (localCoord_lt z) w.chunks hwf
    rw [World.get_voxel, World.set_voxel]
    simp only [hfind, hget]
  · intro hmiss
    rw [World.set_voxel]
    exact setInChunks_append _ _ _ _ _ w.chunks hmiss

/-- Witness for C1 at the concrete empty world and the boundary
coordinate `wx = -1`. -/
theorem world_set_get_roundtrip_witness :
    World.WF { chunks := [] } ∧
    (({ chunks := [] } : World).set_voxel (-1) 0 0 VoxelType.stone).get_voxel
      (-1) 0 0 = VoxelType.stone := by
  have hwf : World.WF { chunks := [] } := by
    intro c hc
    exact absurd hc (List.not_mem_nil c)
  exact ⟨hwf,
    (world_set_get_roundtrip { chunks := [] } (-1) 0 0 VoxelType.stone hwf).1⟩

/-- C2: evidence of the out-of-range read bug.  `Chunk::get_voxel`
answers out-of-range coordinates with `&self.voxels[0]` (its comment
says "Return air for out of bounds"), so after the in-range write
`set_voxel(0,0,0,Stone)` the out-of-range read `get_voxel(16,0,0)`
returns `Stone`, not `Air`. -/
theorem chunk_oob_read_bug :
    (((Chunk.new (0, 0, 0)).set_voxel 0 0 0 VoxelType.stone).get_voxel
      16 0 0).voxel_type = VoxelType.stone ∧
    VoxelType.stone ≠ VoxelType.air := by
  constructor
  · rfl
  · decide

/-- C8 (amended): the chunk coordinate the source derives agrees with
exact integer floor-division by 16 for every coordinate of magnitude at
most `2^24` (the range on which `i32 as f32` is exact); the local
coordinate agrees with the Euclidean remainder mod 16 — it always lies
in `[0,16)` and differs from the coordinate by 16 times the floor
quotient — for every integer coordinate. -/
theorem coord_mapping (x : Int) :
    (x.natAbs ≤ 2 ^ 24 → chunkCoord x = x.fdiv 16) ∧
    ((localCoord x : Int) = x - 16 * x.fdiv 16 ∧ localCoord x < 16) := by
  refine ⟨fun h => chunkCoord_eq_fdiv h, ?_, localCoord_lt x⟩
  have hid : x.fdiv 16 = x / 16 := Int.fdiv_eq_ediv x (by decide)
  have hmod := Int.emod_add_ediv x 16
  have hm0 : 0 ≤ x.emod 16 := Int.emod_nonneg x (by decide)
  have hm1 : x.emod 16 < 16 := Int.emod_lt_of_pos x (by decide)
  unfold localCoord
  rw [hid]
  omega

/-- Witness for C8's amended theorem at `x = -17` (chunk `-2`,
local `15`). -/
theorem coord_mapping_witness :
    (-17 : Int).natAbs ≤ 2 ^ 24 ∧
    (chunkCoord (-17) = (-17 : Int).fdiv 16 ∧
      (localCoord (-17) : Int) = -17 - 16 * (-17 : Int).fdiv 16 ∧
      localCoord (-17) < 16) :=
  ⟨by decide, (coord_mapping (-17)).1 (by decide), (coord_mapping (-17)).2⟩

/-- C8 counterexample: at `x = 2147483647 = 2^31 - 1` the `f32` round
trip rounds up to `2^31`, so the derived chunk coordinate is
`134217728` while exact floor-division gives `134217727`. -/
theorem coord_mapping_large_counterexample :
    chunkCoord 2147483647 ≠ (2147483647 : Int).fdiv 16 := by
  decide

/-! ## The per-frame flattened GPU voxel buffer (`src/main.rs` lines 436–487)

Each frame builds a `Vec<i32>` of `3*3*16*16*16` zeros and, for every
chunk, writes the integer encoding of each voxel at
`chunk_index * 4096 + (x + y*16 + z*256)` where
`chunk_index = (position.x + 1) as usize + ((position.z + 1) as usize) * 3`
(the y component of the position is ignored), guarded by a
bounds check.  The `usize` casts and arithmetic wrap modulo `2^64`, the
`+ 1` is `i32` addition wrapping modulo `2^32`.
-/

/-- The integer encoding of a voxel type used for the GPU buffer. -/
def encodeVoxel : VoxelType → Int
  | VoxelType.air => 0
  | VoxelType.dirt => 1
  | VoxelType.grass => 2
  | VoxelType.stone => 3
  | VoxelType.wood => 4
  | VoxelType.leaves => 5
  | VoxelType.light => 6

/-- Result of an `i32 as usize` cast on a 64-bit target (sign-extend,
then reinterpret: wrap modulo `2^64`). -/
def u64cast (v : Int) : Nat :=
  (v % 2 ^ 64).toNat

/-- Wrap-around result of `i32` arithmetic. -/
def i32wrap (v : Int) : Int :=
  (v + 2 ^ 31) % 2 ^ 32 - 2 ^ 31

/-- The buffer slot of a chunk:
`(position.0 + 1) as usize + ((position.2 + 1) as usize) * 3`
(`usize` arithmetic, wrapping). -/
def chunkSlot (c : Chunk) : Nat :=
  (u64cast (i32wrap (c.position.1 + 1)) +
    u64cast (i32wrap (c.position.2.2 + 1)) * 3) % 2 ^ 64

/-- The buffer-fill pass for one chunk: the three nested 0..16 loops of
the source, writing `encodeVoxel` of each voxel at
`chunk_index * 16*16*16 + (x + y*16 + z*16*16)` when that index is in
bounds. -/
def fillChunk (buf : List Int) (c : Chunk) : List Int :=
  (List.range 16).foldl (fun buf y =>
    (List.range 16).foldl (fun buf z =>
      (List.range 16).foldl (fun buf x =>
        let idx := (chunkSlot c * (16 * 16 * 16) + (x + y * 16 + z * 16 * 16)) % 2 ^ 64
        if idx < buf.length then
          buf.set idx (encodeVoxel (c.get_voxel x y z).voxel_type)
        else buf) buf) buf) buf

/-- The whole per-frame voxel buffer: `3*3*16*16*16` zeros, then every
chunk's fill pass in chunk-list order. -/
def gpuBuffer (w : World) : List Int :=
  w.chunks.foldl fillChunk (List.replicate (3 * 3 * 16 * 16 * 16) 0)

theorem fillChunk_length (buf : List Int) (c : Chunk) :
    (fillChunk buf c).length = buf.length := by
  unfold fillChunk
  refine foldl_range_obs_ne List.length _ 16 buf (fun s y _ => ?_)
  refine foldl_range_obs_ne List.length _ 16 s (fun s' z _ => ?_)
  refine foldl_range_obs_ne List.length _ 16 s' (fun s'' x _ => ?_)
  dsimp only
  split
  · exact List.length_set _ _ _
  · rfl

theorem fillChunk_getElem?_ne (buf : List Int) (c : Chunk) (i : Nat)
    (h : ∀ lx ly lz : Nat, lx < 16 → ly < 16 → lz < 16 →
      (chunkSlot c * (16 * 16 * 16) + (lx + ly * 16 + lz * 16 * 16)) % 2 ^ 64 ≠ i) :
    (fillChunk buf c)[i]? = buf[i]? := by
  unfold fillChunk
  refine foldl_range_obs_ne (fun l => l[i]?) _ 16 buf (fun s y hy => ?_)
  refine foldl_range_obs_ne (fun l => l[i]?) _ 16 s (fun s' z hz => ?_)
  refine foldl_range_obs_ne (fun l => l[i]?) _ 16 s' (fun s'' x hx => ?_)
  dsimp only
  split
  · exact List.getElem?_set_ne (h x y z hx hy hz)
  · rfl

theorem slot_idx_collapse (s loc : Nat) (hs : s ≤ 8) (hloc : loc < 16 * 16 * 16) :
    (s * (16 * 16 * 16) + loc) % 2 ^ 64 = s * (16 * 16 * 16) + loc :=
  Nat.mod_eq_of_lt (by omega)

theorem fillChunk_getElem?_eq (buf : List Int) (c : Chunk) (lx ly lz : Nat)
    (hx : lx < 16) (hy : ly < 16) (hz : lz < 16)
    (hlen : buf.length = 3 * 3 * 16 * 16 * 16) (hslot : chunkSlot c ≤ 8) :
    (fillChunk buf c)[chunkSlot c * (16 * 16 * 16) + (lx + ly * 16 + lz * 16 * 16)]? =
      some (encodeVoxel (c.get_voxel lx ly lz).voxel_type) := by
  have hdig : ∀ x y z : Nat, x < 16 → y < 16 → z < 16 →
      (chunkSlot c * (16 * 16 * 16) + (x + y * 16 + z * 16 * 16)) % 2 ^ 64 =
        chunkSlot c * (16 * 16 * 16) + (x + y * 16 + z * 16 * 16) :=
    fun x y z hx' hy' hz' => slot_idx_collapse _ _ hslot (by omega)
  unfold fillChunk
  refine foldl_range_obs_last
    (fun l => l[chunkSlot c * (16 * 16 * 16) + (lx + ly * 16 + lz * 16 * 16)]?)
    (fun l => l.length = 3 * 3 * 16 * 16 * 16) _ ly _ ?_ ?_ 16 hy ?_ buf hlen
  · intro s j hs
    refine Eq.trans ?_ hs
    refine foldl_range_obs_ne List.length _ 16 s (fun s' z _ => ?_)
    refine foldl_range_obs_ne List.length _ 16 s' (fun s'' x _ => ?_)
    dsimp only
    split
    · exact List.length_set _ _ _
    · rfl
  · intro s hs
    refine foldl_range_obs_last
      (fun l => l[chunkSlot c * (16 * 16 * 16) + (lx + ly * 16 + lz * 16 * 16)]?)
      (fun l => l.length = 3 * 3 * 16 * 16 * 16) _ lz _ ?_ ?_ 16 hz ?_ s hs
    · intro s' j hs'
      refine Eq.trans ?_ hs'
      refine foldl_range_obs_ne List.length _ 16 s' (fun s'' x _ => ?_)
      dsimp only
      split
      · exact List.length_set _ _ _
      · rfl
    · intro s' hs'
      refine foldl_range_obs_last
        (fun l => l[chunkSlot c * (16 * 16 * 16) + (lx + ly * 16 + lz * 16 * 16)]?)
        (fun l => l.length = 3 * 3 * 16 * 16 * 16) _ lx _ ?_ ?_ 16 hx ?_ s' hs'
      · intro s'' j hs''
        dsimp only
        split
        · rw [List.length_set]; exact hs''
        · exact hs''
      · intro s'' hs''
        dsimp only
        rw [hdig lx ly lz hx hy hz]
        rw [if_pos (by omega)]
        exact List.getElem?_set_eq_of_lt _ (by omega)
      · intro s'' x hx16 hxne
        dsimp only
        split
        · refine List.getElem?_set_ne ?_
          rw [hdig x ly lz hx16 hy hz]
          intro hc
          apply hxne
          omega
        · rfl
    · intro s' z hz16 hzne
      refine foldl_range_obs_ne
        (fun l => l[chunkSlot c * (16 * 16 * 16) + (lx + ly * 16 + lz * 16 * 16)]?)
        _ 16 s' (fun s'' x hx16 => ?_)
      dsimp only
      split
      · refine List.getElem?_set_ne ?_
        rw [hdig x ly z hx16 hy hz16]
        intro hc
        apply hzne
        omega
      · rfl
  · intro s y hy16 hyne
    refine foldl_range_obs_ne
      (fun l => l[chunkSlot c * (16 * 16 * 16) + (lx + ly * 16 + lz * 16 * 16)]?)
      _ 16 s (fun s' z hz16 => ?_)
    refine foldl_range_obs_ne
      (fun l => l[chunkSlot c * (16 * 16 * 16) + (lx + ly * 16 + lz * 16 * 16)]?)
      _ 16 s' (fun s'' x hx16 => ?_)
    dsimp only
    split
    · refine List.getElem?_set_ne ?_
      rw [hdig x y z hx16 hy16 hz16]
      intro hc
      apply hyne
      omega
    · rfl

theorem getD_prop {α : Type} (P : α → Prop) (l : List α) (n : Nat) (d : α)
    (hl : ∀ v ∈ l, P v) (hd : P d) : P (l.getD n d) := by
  rw [List.getD_eq_getElem?_getD]
  cases h : l[n]? with
  | none => simpa using hd
  | some v => simpa using hl v (List.getElem?_mem h)

/-- A chunk whose cells are all `Air`. -/
def Chunk.allAir (c : Chunk) : Prop :=
  ∀ v ∈ c.voxels, v.voxel_type = VoxelType.air

theorem Chunk.get_voxel_air (c : Chunk) (h : c.allAir) (x y z : Nat) :
    (c.get_voxel x y z).voxel_type = VoxelType.air := by
  unfold Chunk.get_voxel
  split
  · exact getD_prop (fun v : Voxel => v.voxel_type = VoxelType.air) _ _ _ h rfl
  · exact getD_prop (fun v : Voxel => v.voxel_type = VoxelType.air) _ _ _ h rfl

theorem Chunk.new_allAir (p : Int × Int × Int) : (Chunk.new p).allAir := by
  intro v hv
  rw [(List.mem_replicate.mp hv).2]

theorem gpuBuffer_length (w : World) :
    (gpuBuffer w).length = 3 * 3 * 16 * 16 * 16 := by
  unfold gpuBuffer
  rw [foldl_obs_ne List.length fillChunk w.chunks _
    (fun s c _ => fillChunk_length s c)]
  exact List.length_replicate _ _

theorem gpuBuffer_allAir (w : World) (h : ∀ c ∈ w.chunks, Chunk.allAir c) :
    ∀ (j : Nat) (v : Int), (gpuBuffer w)[j]? = some v → v = 0 := by
  unfold gpuBuffer
  refine foldl_invariant (fun l : List Int => ∀ (j : Nat) (v : Int), l[j]? = some v → v = 0) fillChunk
    w.chunks _ ?_ ?_
  · intro s c hc hs
    unfold fillChunk
    refine foldl_invariant (fun l : List Int => ∀ (j : Nat) (v : Int), l[j]? = some v → v = 0) _
      (List.range 16) s (fun s' y _ hs' => ?_) hs
    refine foldl_invariant (fun l : List Int => ∀ (j : Nat) (v : Int), l[j]? = some v → v = 0) _
      (List.range 16) s' (fun s'' z _ hs'' => ?_) hs'
    refine foldl_invariant (fun l : List Int => ∀ (j : Nat) (v : Int), l[j]? = some v → v = 0) _
      (List.range 16) s'' (fun s3 x _ hs3 => ?_) hs''
    dsimp only
    split
    · intro j v hjv
      rw [List.getElem?_set] at hjv
      split at hjv
      · injection hjv with hv
        rw [← hv, Chunk.get_voxel_air c (h c hc)]
        rfl
      · exact hs3 j v hjv
    · exact hs3
  · intro j v hjv
    rw [List.getElem?_replicate] at hjv
    split at hjv
    · cases hjv; rfl
    · cases hjv

theorem mul_mod_block (a loc : Nat) (hloc : loc < 16 * 16 * 16) :
    (a * (16 * 16 * 16) + loc) % 2 ^ 64 = a % 2 ^ 52 * (16 * 16 * 16) + loc := by
  have hsplit : (2 : Nat) ^ 64 = 2 ^ 52 * (16 * 16 * 16) := by norm_num
  have h1 : a * (16 * 16 * 16) % 2 ^ 64 = a % 2 ^ 52 * (16 * 16 * 16) := by
    rw [hsplit, Nat.mul_mod_mul_right]
  have hrem : a % 2 ^ 52 < 2 ^ 52 := Nat.mod_lt _ (by norm_num)
  calc (a * (16 * 16 * 16) + loc) % 2 ^ 64
      = (a * (16 * 16 * 16) % 2 ^ 64 + loc % 2 ^ 64) % 2 ^ 64 := by
        rw [Nat.add_mod]
    _ = (a % 2 ^ 52 * (16 * 16 * 16) + loc) % 2 ^ 64 := by
        rw [h1, Nat.mod_eq_of_lt (show loc < 2 ^ 64 by omega)]
    _ = a % 2 ^ 52 * (16 * 16 * 16) + loc := Nat.mod_eq_of_lt (by omega)

theorem fillChunk_getElem?_ne_of_slot (buf : List Int) (c : Chunk) (s l : Nat)
    (hl : l < 16 * 16 * 16) (hslot : chunkSlot c % 2 ^ 52 ≠ s) :
    (fillChunk buf c)[s * (16 * 16 * 16) + l]? = buf[s * (16 * 16 * 16) + l]? := by
  refine fillChunk_getElem?_ne buf c _ (fun x y z hx hy hz => ?_)
  rw [mul_mod_block _ _ (by omega)]
  intro hc
  apply hslot
  omega

theorem chunkSlot_inRange (c : Chunk) (px pz : Int)
    (hpos1 : c.position.1 = px) (hpos2 : c.position.2.2 = pz)
    (hpx0 : -1 ≤ px) (hpx1 : px ≤ 1) (hpz0 : -1 ≤ pz) (hpz1 : pz ≤ 1) :
    chunkSlot c = (px + 1).toNat + (pz + 1).toNat * 3 := by
  unfold chunkSlot
  rw [hpos1, hpos2]
  interval_cases px <;> interval_cases pz <;> decide

/-- C3 (amended): the per-frame flattened GPU voxel buffer always has
length `9 * 4096 = 36864`; for a world whose chunks hold only `Air`
every element is `0`; and for every chunk with position `(px, 0, pz)`,
`px, pz ∈ [-1, 1]`, and local `(x, y, z) ∈ [0,16)^3`, the element at
index `((px+1) + (pz+1)*3) * 4096 + x + y*16 + z*256` equals the integer
encoding of that voxel's type — provided no chunk appearing later in the
chunk list maps its writes onto the same 4096-element buffer block (the
fill ignores `position.y`, so a later chunk with the same x/z slot
overwrites the element). -/
theorem gpu_buffer_spec :
    (∀ w : World, (gpuBuffer w).length = 3 * 3 * 16 * 16 * 16) ∧
    (∀ w : World, (∀ c ∈ w.chunks, Chunk.allAir c) →
      ∀ (j : Nat) (v : Int), (gpuBuffer w)[j]? = some v → v = 0) ∧
    (∀ (w : World) (l₁ : List Chunk) (c : Chunk) (l₂ : List Chunk)
      (px pz : Int) (x y z : Nat),
      w.chunks = l₁ ++ c :: l₂ →
      c.position = (px, 0, pz) →
      -1 ≤ px → px ≤ 1 → -1 ≤ pz → pz ≤ 1 →
      x < 16 → y < 16 → z < 16 →
      (∀ c' ∈ l₂, chunkSlot c' % 2 ^ 52 ≠ chunkSlot c) →
      (gpuBuffer w)[((px + 1).toNat + (pz + 1).toNat * 3) * (16 * 16 * 16) +
          (x + y * 16 + z * 16 * 16)]? =
        some (encodeVoxel (c.get_voxel x y z).voxel_type)) := by
  refine ⟨gpuBuffer_length, gpuBuffer_allAir, ?_⟩
  intro w l₁ c l₂ px pz x y z hsplit hpos hpx0 hpx1 hpz0 hpz1 hx hy hz hpost
  have hslot : chunkSlot c = (px + 1).toNat + (pz + 1).toNat * 3 :=
    chunkSlot_inRange c px pz (by rw [hpos]) (by rw [hpos]) hpx0 hpx1 hpz0 hpz1
  have hslot8 : chunkSlot c ≤ 8 := by rw [hslot]; omega
  rw [← hslot]
  unfold gpuBuffer
  rw [hsplit]
  refine foldl_obs_last
    (fun l => l[chunkSlot c * (16 * 16 * 16) + (x + y * 16 + z * 16 * 16)]?)
    (fun l => l.length = 3 * 3 * 16 * 16 * 16) fillChunk l₁ c l₂ _
    (fun s b hb => by dsimp only; rw [fillChunk_length]; exact hb)
    (fun s hs => fillChunk_getElem?_eq s c x y z hx hy hz hs hslot8)
    (fun s b hb => ?_) _ (List.length_replicate _ _)
  refine fillChunk_getElem?_ne_of_slot s b (chunkSlot c) _ (by omega) ?_
  exact hpost b hb

/-- Witness for C3's amended theorem: the one-chunk all-`Air` world,
read at `px = pz = 0`, `x = y = z = 0`. -/
theorem gpu_buffer_spec_witness :
    (∀ c ∈ ({ chunks := [Chunk.new (0, 0, 0)] } : World).chunks, Chunk.allAir c) ∧
    (∀ (j : Nat) (v : Int),
      (gpuBuffer { chunks := [Chunk.new (0, 0, 0)] })[j]? = some v → v = 0) ∧
    (gpuBuffer { chunks := [Chunk.new (0, 0, 0)] })[((0 + 1 : Int).toNat +
        ((0 : Int) + 1).toNat * 3) * (16 * 16 * 16) +
        (0 + 0 * 16 + 0 * 16 * 16)]? =
      some (encodeVoxel ((Chunk.new (0, 0, 0)).get_voxel 0 0 0).voxel_type) := by
  have hair : ∀ c ∈ ({ chunks := [Chunk.new (0, 0, 0)] } : World).chunks,
      Chunk.allAir c := by
    intro c hc
    rw [List.mem_singleton.mp hc]
    exact Chunk.new_allAir _
  refine ⟨hair, gpu_buffer_spec.2.1 _ hair, ?_⟩
  exact gpu_buffer_spec.2.2 { chunks := [Chunk.new (0, 0, 0)] } []
    (Chunk.new (0, 0, 0)) [] 0 0 0 0 0 rfl rfl (by decide) (by decide)
    (by decide) (by decide) (by decide) (by decide) (by decide)
    (fun c' hc' => absurd hc' (List.not_mem_nil c'))

/-- C3 counterexample: in a world whose chunk list holds a `Stone`-at-
origin chunk at position `(0,0,0)` followed by an all-`Air` chunk at
position `(0,1,0)`, the buffer element the claim assigns to the first
chunk's `(0,0,0)` voxel (index `4*4096 = 16384`, value `3` = Stone) is
actually `0`: the later chunk shares the x/z slot (the fill ignores
`position.y`) and overwrites it. -/
theorem gpu_buffer_overwrite_counterexample :
    (gpuBuffer { chunks := [(Chunk.new (0, 0, 0)).set_voxel 0 0 0 VoxelType.stone,
        Chunk.new (0, 1, 0)] })[16384]? ≠
      some (encodeVoxel
        (((Chunk.new (0, 0, 0)).set_voxel 0 0 0 VoxelType.stone).get_voxel
          0 0 0).voxel_type) := by
  have hval : (gpuBuffer { chunks := [(Chunk.new (0, 0, 0)).set_voxel 0 0 0
      VoxelType.stone, Chunk.new (0, 1, 0)] })[16384]? = some 0 := by
    have hslot : chunkSlot (Chunk.new (0, 1, 0)) = 4 := by decide
    have h : (gpuBuffer { chunks := [(Chunk.new (0, 0, 0)).set_voxel 0 0 0
        VoxelType.stone, Chunk.new (0, 1, 0)] })[chunkSlot (Chunk.new (0, 1, 0)) *
          (16 * 16 * 16) + (0 + 0 * 16 + 0 * 16 * 16)]? =
        some (encodeVoxel ((Chunk.new (0, 1, 0)).get_voxel 0 0 0).voxel_type) := by
      unfold gpuBuffer
      exact foldl_obs_last
        (fun l => l[chunkSlot (Chunk.new (0, 1, 0)) * (16 * 16 * 16) +
          (0 + 0 * 16 + 0 * 16 * 16)]?)
        (fun l => l.length = 3 * 3 * 16 * 16 * 16) fillChunk
        [(Chunk.new (0, 0, 0)).set_voxel 0 0 0 VoxelType.stone]
        (Chunk.new (0, 1, 0)) [] _
        (fun s b hb => by dsimp only; rw [fillChunk_length]; exact hb)
        (fun s hs => fillChunk_getElem?_eq s _ 0 0 0 (by decide) (by decide)
          (by decide) hs (by rw [hslot]; omega))
        (fun s b hb => absurd hb (List.not_mem_nil b))
        _ (List.length_replicate _ _)
    rw [hslot] at h
    have hidx : (4 * (16 * 16 * 16) + (0 + 0 * 16 + 0 * 16 * 16) : Nat) = 16384 := by
      norm_num
    rw [hidx] at h
    rw [h]
    rfl
  rw [hval]
  intro hc
  have : (0 : Int) = 3 := by
    have h3 : encodeVoxel (((Chunk.new (0, 0, 0)).set_voxel 0 0 0
        VoxelType.stone).get_voxel 0 0 0).voxel_type = 3 := rfl
    rw [h3] at hc
    exact Option.some_injective _ hc
  exact absurd this (by decide)

/-! ## `World::new` terrain generation (`src/main.rs` lines 80–114)

The generator computes, per column, an `f32` height
`4.0 + sin(world_x * 0.1) + cos(world_z * 0.1)` and compares the
integer layers `0..16` against `height`, `height - 1.0` and
`height - 3.0`.  The trigonometric evaluation is abstracted as a height
oracle `hf : Int → Int → ℚ` (every `f32` value is rational, and in the
height range `[2, 6]` the two `f32` subtractions are exact, so the
comparisons below are the source's comparisons verbatim).  All claims
are proved for every oracle; the source's height function is one
instance. -/

/-- One chunk of generated terrain: the three nested loops of
`World::new` over a fresh chunk at `(x, 0, z)`. -/
def genChunk (hf : Int → Int → ℚ) (x z : Int) : Chunk :=
  (List.range 16).foldl (fun ch (cx : Nat) =>
    (List.range 16).foldl (fun ch (cz : Nat) =>
      let world_x : Int := (cx : Int) + x * 16
      let world_z : Int := (cz : Int) + z * 16
      let height := hf world_x world_z
      (List.range 16).foldl (fun ch (cy : Nat) =>
        if (cy : ℚ) ≤ height then
          if height - 1 < (cy : ℚ) then ch.set_voxel cx cy cz VoxelType.grass
          else if height - 3 < (cy : ℚ) then ch.set_voxel cx cy cz VoxelType.dirt
          else ch.set_voxel cx cy cz VoxelType.stone
        else ch) ch) ch) (Chunk.new (x, 0, z))

/-- `World::new`: a 3×3 grid of generated chunks, `x` outer, `z` inner. -/
def worldNew (hf : Int → Int → ℚ) : World :=
  { chunks := ([-1, 0, 1] : List Int).foldl (fun acc x =>
      ([-1, 0, 1] : List Int).foldl (fun acc z =>
        acc ++ [genChunk hf x z]) acc) [] }

/-- The voxel the generation loop leaves at layer `cy` of a column with
height `h`: the loop body's branch structure as a value. -/
def columnVoxel (h : ℚ) (cy : Nat) : Voxel :=
  if (cy : ℚ) ≤ h then
    if h - 1 < (cy : ℚ) then { voxel_type := VoxelType.grass }
    else if h - 3 < (cy : ℚ) then { voxel_type := VoxelType.dirt }
    else { voxel_type := VoxelType.stone }
  else { voxel_type := VoxelType.air }

theorem Chunk.voxels_set_voxel_ne (c : Chunk) (x y z : Nat) (t : VoxelType)
    (i : Nat) (h : y * 16 * 16 + z * 16 + x ≠ i) :
    (c.set_voxel x y z t).voxels[i]? = c.voxels[i]? := by
  unfold Chunk.set_voxel
  split
  · exact List.getElem?_set_ne h
  · rfl

theorem Chunk.voxels_length_set_voxel (c : Chunk) (x y z : Nat) (t : VoxelType) :
    (c.set_voxel x y z t).voxels.length = c.voxels.length :=
  Chunk.length_set_voxel c x y z t

theorem genChunk_position (hf : Int → Int → ℚ) (x z : Int) :
    (genChunk hf x z).position = (x, 0, z) := by
  unfold genChunk
  refine Eq.trans (foldl_range_obs_ne Chunk.position _ 16 _
    (fun s cx _ => ?_)) rfl
  refine foldl_range_obs_ne Chunk.position _ 16 s (fun s' cz _ => ?_)
  refine foldl_range_obs_ne Chunk.position _ 16 s' (fun s'' cy _ => ?_)
  dsimp only
  split
  · split
    · exact Chunk.position_set_voxel _ _ _ _ _
    · split
      · exact Chunk.position_set_voxel _ _ _ _ _
      · exact Chunk.position_set_voxel _ _ _ _ _
  · rfl

theorem genChunk_length (hf : Int → Int → ℚ) (x z : Int) :
    (genChunk hf x z).voxels.length = 16 * 16 * 16 := by
  unfold genChunk
  refine Eq.trans (foldl_range_obs_ne (fun c : Chunk => c.voxels.length) _ 16 _
    (fun s cx _ => ?_)) (Chunk.length_new _)
  refine foldl_range_obs_ne (fun c : Chunk => c.voxels.length) _ 16 s (fun s' cz _ => ?_)
  refine foldl_range_obs_ne (fun c : Chunk => c.voxels.length) _ 16 s' (fun s'' cy _ => ?_)
  dsimp only
  split
  · split
    · exact Chunk.voxels_length_set_voxel _ _ _ _ _
    · split
      · exact Chunk.voxels_length_set_voxel _ _ _ _ _
      · exact Chunk.voxels_length_set_voxel _ _ _ _ _
  · rfl

theorem genChunk_voxels_getElem? (hf : Int → Int → ℚ) (x z : Int)
    (cx cy cz : Nat) (hx : cx < 16) (hy : cy < 16) (hz : cz < 16) :
    (genChunk hf x z).voxels[cy * 16 * 16 + cz * 16 + cx]? =
      some (columnVoxel (hf ((cx : Int) + x * 16) ((cz : Int) + z * 16)) cy) := by
  have hdig : ∀ x' y' z' : Nat, x' < 16 → y' < 16 → z' < 16 →
      (y' * 16 * 16 + z' * 16 + x' = cy * 16 * 16 + cz * 16 + cx) →
      x' = cx ∧ y' = cy ∧ z' = cz := by
    intro x' y' z' hx' hy' hz' he
    omega
  by_cases hcase : ((cy : ℚ) ≤ hf ((cx : Int) + x * 16) ((cz : Int) + z * 16))
  · -- the layer is solid: the write at (cx, cy, cz) survives to the end
    unfold genChunk
    refine foldl_range_obs_last (fun c : Chunk => c.voxels[cy * 16 * 16 + cz * 16 + cx]?)
      (fun c => c.voxels.length = 16 * 16 * 16) _ cx _ ?_ ?_ 16 hx ?_ _
      (Chunk.length_new _)
    · intro s j hs
      refine Eq.trans ?_ hs
      refine foldl_range_obs_ne (fun c : Chunk => c.voxels.length) _ 16 s (fun s' cz' _ => ?_)
      refine foldl_range_obs_ne (fun c : Chunk => c.voxels.length) _ 16 s' (fun s'' cy' _ => ?_)
      dsimp only
      split
      · split
        · exact Chunk.voxels_length_set_voxel _ _ _ _ _
        · split
          · exact Chunk.voxels_length_set_voxel _ _ _ _ _
          · exact Chunk.voxels_length_set_voxel _ _ _ _ _
      · rfl
    · intro s hs
      refine foldl_range_obs_last (fun c : Chunk => c.voxels[cy * 16 * 16 + cz * 16 + cx]?)
        (fun c => c.voxels.length = 16 * 16 * 16) _ cz _ ?_ ?_ 16 hz ?_ s hs
      · intro s' j hs'
        refine Eq.trans ?_ hs'
        refine foldl_range_obs_ne (fun c : Chunk => c.voxels.length) _ 16 s' (fun s'' cy' _ => ?_)
        dsimp only
        split
        · split
          · exact Chunk.voxels_length_set_voxel _ _ _ _ _
          · split
            · exact Chunk.voxels_length_set_voxel _ _ _ _ _
            · exact Chunk.voxels_length_set_voxel _ _ _ _ _
        · rfl
      · intro s' hs'
        refine foldl_range_obs_last (fun c : Chunk => c.voxels[cy * 16 * 16 + cz * 16 + cx]?)
          (fun c => c.voxels.length = 16 * 16 * 16) _ cy _ ?_ ?_ 16 hy ?_ s' hs'
        · intro s'' j hs''
          dsimp only
          split
          · split
            · rw [Chunk.voxels_length_set_voxel]; exact hs''
            · split
              · rw [Chunk.voxels_length_set_voxel]; exact hs''
              · rw [Chunk.voxels_length_set_voxel]; exact hs''
          · exact hs''
        · intro s'' hs''
          dsimp only
          rw [if_pos hcase]
          unfold columnVoxel
          rw [if_pos hcase]
          have hwr : ∀ (T : VoxelType),
              (s''.set_voxel cx cy cz T).voxels[cy * 16 * 16 + cz * 16 + cx]? =
                some { voxel_type := T } := by
            intro T
            unfold Chunk.set_voxel
            rw [if_pos ⟨hx, hy, hz⟩]
            exact List.getElem?_set_eq_of_lt _ (by rw [hs'']; omega)
          split
          · exact hwr _
          · split
            · exact hwr _
            · exact hwr _
        · intro s'' cy' hcy' hne
          dsimp only
          have hne' : cy' * 16 * 16 + cz * 16 + cx ≠ cy * 16 * 16 + cz * 16 + cx := by
            intro hc
            exact hne (hdig cx cy' cz hx hcy' hz hc).2.1
          split
          · split
            · exact Chunk.voxels_set_voxel_ne _ _ _ _ _ _ hne'
            · split
              · exact Chunk.voxels_set_voxel_ne _ _ _ _ _ _ hne'
              · exact Chunk.voxels_set_voxel_ne _ _ _ _ _ _ hne'
          · rfl
      · intro s' cz' hcz' hne
        refine foldl_range_obs_ne (fun c : Chunk => c.voxels[cy * 16 * 16 + cz * 16 + cx]?)
          _ 16 s' (fun s'' cy' hcy' => ?_)
        dsimp only
        have hne' : cy' * 16 * 16 + cz' * 16 + cx ≠ cy * 16 * 16 + cz * 16 + cx := by
          intro hc
          exact hne (hdig cx cy' cz' hx hcy' hcz' hc).2.2
        split
        · split
          · exact Chunk.voxels_set_voxel_ne _ _ _ _ _ _ hne'
          · split
            · exact Chunk.voxels_set_voxel_ne _ _ _ _ _ _ hne'
            · exact Chunk.voxels_set_voxel_ne _ _ _ _ _ _ hne'
        · rfl
    · intro s cx' hcx' hne
      refine foldl_range_obs_ne (fun c : Chunk => c.voxels[cy * 16 * 16 + cz * 16 + cx]?)
        _ 16 s (fun s' cz' hcz' => ?_)
      refine foldl_range_obs_ne (fun c : Chunk => c.voxels[cy * 16 * 16 + cz * 16 + cx]?)
        _ 16 s' (fun s'' cy' hcy' => ?_)
      dsimp only
      have hne' : cy' * 16 * 16 + cz' * 16 + cx' ≠ cy * 16 * 16 + cz * 16 + cx := by
        intro hc
        exact hne (hdig cx' cy' cz' hcx' hcy' hcz' hc).1
      split
      · split
        · exact Chunk.voxels_set_voxel_ne _ _ _ _ _ _ hne'
        · split
          · exact Chunk.voxels_set_voxel_ne _ _ _ _ _ _ hne'
          · exact Chunk.voxels_set_voxel_ne _ _ _ _ _ _ hne'
      · rfl
  · -- the layer is above the height: no loop iteration writes this cell
    unfold columnVoxel
    rw [if_neg hcase]
    unfold genChunk
    have hinit : (Chunk.new (x, 0, z)).voxels[cy * 16 * 16 + cz * 16 + cx]? =
        some { voxel_type := VoxelType.air } := by
      unfold Chunk.new
      rw [List.getElem?_replicate, if_pos (by omega)]
    refine Eq.trans (foldl_range_obs_ne
      (fun c : Chunk => c.voxels[cy * 16 * 16 + cz * 16 + cx]?) _ 16 _
      (fun s cx' hcx' => ?_)) hinit
    refine foldl_range_obs_ne (fun c : Chunk => c.voxels[cy * 16 * 16 + cz * 16 + cx]?)
      _ 16 s (fun s' cz' hcz' => ?_)
    refine foldl_range_obs_ne (fun c : Chunk => c.voxels[cy * 16 * 16 + cz * 16 + cx]?)
      _ 16 s' (fun s'' cy' hcy' => ?_)
    dsimp only
    by_cases hsame : cx' = cx ∧ cy' = cy ∧ cz' = cz
    · obtain ⟨h1, h2, h3⟩ := hsame
      subst h1; subst h2; subst h3
      rw [if_neg hcase]
    · have hne' : cy' * 16 * 16 + cz' * 16 + cx' ≠ cy * 16 * 16 + cz * 16 + cx := by
        intro hc
        exact hsame (hdig cx' cy' cz' hcx' hcy' hcz' hc)
      split
      · split
        · exact Chunk.voxels_set_voxel_ne _ _ _ _ _ _ hne'
        · split
          · exact Chunk.voxels_set_voxel_ne _ _ _ _ _ _ hne'
          · exact Chunk.voxels_set_voxel_ne _ _ _ _ _ _ hne'
      · rfl

theorem worldNew_chunks (hf : Int → Int → ℚ) :
    (worldNew hf).chunks =
      [genChunk hf (-1) (-1), genChunk hf (-1) 0, genChunk hf (-1) 1,
        genChunk hf 0 (-1), genChunk hf 0 0, genChunk hf 0 1,
        genChunk hf 1 (-1), genChunk hf 1 0, genChunk hf 1 1] := rfl

theorem worldNew_find? (hf : Int → Int → ℚ) (cx cz : Int)
    (hcx0 : -1 ≤ cx) (hcx1 : cx ≤ 1) (hcz0 : -1 ≤ cz) (hcz1 : cz ≤ 1) :
    (worldNew hf).chunks.find? (fun c => decide (c.position = (cx, 0, cz))) =
      some (genChunk hf cx cz) := by
  rw [worldNew_chunks]
  interval_cases cx <;> interval_cases cz <;>
    (simp only [List.find?_cons, genChunk_position]; rfl)

theorem localCoord_add_fdiv (v : Int) :
    (localCoord v : Int) + v.fdiv 16 * 16 = v := by
  unfold localCoord
  rw [Int.fdiv_eq_ediv _ (by decide)]
  omega

theorem worldNew_get (hf : Int → Int → ℚ) (wx wy wz : Int)
    (hwx0 : -16 ≤ wx) (hwx1 : wx ≤ 31) (hwy0 : 0 ≤ wy) (hwy1 : wy ≤ 15)
    (hwz0 : -16 ≤ wz) (hwz1 : wz ≤ 31) :
    (worldNew hf).get_voxel wx wy wz =
      (columnVoxel (hf wx wz) wy.toNat).voxel_type := by
  have habs : ∀ v : Int, -16 ≤ v → v ≤ 31 → v.natAbs ≤ 2 ^ 24 := by
    intro v h0 h1
    omega
  have hcx : chunkCoord wx = wx.fdiv 16 := chunkCoord_eq_fdiv (habs wx hwx0 hwx1)
  have hcz : chunkCoord wz = wz.fdiv 16 := chunkCoord_eq_fdiv (habs wz hwz0 hwz1)
  have hcy : chunkCoord wy = 0 := by
    rw [chunkCoord_eq_fdiv (by omega), Int.fdiv_eq_ediv _ (by decide)]
    omega
  have hfx0 : -1 ≤ wx.fdiv 16 := by
    rw [Int.fdiv_eq_ediv _ (by decide)]; omega
  have hfx1 : wx.fdiv 16 ≤ 1 := by
    rw [Int.fdiv_eq_ediv _ (by decide)]; omega
  have hfz0 : -1 ≤ wz.fdiv 16 := by
    rw [Int.fdiv_eq_ediv _ (by decide)]; omega
  have hfz1 : wz.fdiv 16 ≤ 1 := by
    rw [Int.fdiv_eq_ediv _ (by decide)]; omega
  have hly : localCoord wy = wy.toNat := by
    unfold localCoord
    omega
  unfold World.get_voxel
  simp only [hcx, hcy, hcz]
  rw [worldNew_find? hf (wx.fdiv 16) (wz.fdiv 16) hfx0 hfx1 hfz0 hfz1]
  dsimp only
  have hgc := genChunk_voxels_getElem? hf (wx.fdiv 16) (wz.fdiv 16)
    (localCoord wx) (localCoord wy) (localCoord wz)
    (localCoord_lt wx) (localCoord_lt wy) (localCoord_lt wz)
  rw [localCoord_add_fdiv wx, localCoord_add_fdiv wz] at hgc
  unfold Chunk.get_voxel
  rw [if_pos ⟨localCoord_lt wx, localCoord_lt wy, localCoord_lt wz⟩,
    List.getD_eq_getElem?_getD, hgc, hly]
  rfl

theorem columnVoxel_eq (h : ℚ) (y : Nat) :
    columnVoxel h y =
      if ⌊h⌋ < (y : Int) then { voxel_type := VoxelType.air }
      else if (y : Int) = ⌊h⌋ then { voxel_type := VoxelType.grass }
      else if ⌊h⌋ - 2 ≤ (y : Int) then { voxel_type := VoxelType.dirt }
      else { voxel_type := VoxelType.stone } := by
  have hle : ((y : ℚ) ≤ h) ↔ ((y : Int) ≤ ⌊h⌋) := by
    rw [Int.le_floor]
    norm_cast
  have hg1 : (h - 1 < (y : ℚ)) ↔ (⌊h⌋ ≤ (y : Int)) := by
    rw [sub_lt_iff_lt_add]
    rw [show ((y : ℚ) + 1) = (((y : Int) + 1 : Int) : ℚ) by push_cast; ring]
    rw [← Int.floor_lt]
    omega
  have hg3 : (h - 3 < (y : ℚ)) ↔ (⌊h⌋ - 2 ≤ (y : Int)) := by
    rw [sub_lt_iff_lt_add]
    rw [show ((y : ℚ) + 3) = (((y : Int) + 3 : Int) : ℚ) by push_cast; ring]
    rw [← Int.floor_lt]
    omega
  unfold columnVoxel
  split_ifs with h1 h2 h3 h4 h5 h6 h7 <;>
      simp only [hle, hg1, hg3] at * <;>
      first
        | rfl
        | omega

/-- C4 (amended): `World::new` produces exactly 9 chunks at positions
`{-1,0,1} × {0} × {-1,0,1}`; for every height oracle `hf` (the source's
`f32` evaluation of `4 + sin(wx*0.1) + cos(wz*0.1)` is one instance) and
every column, with `m = ⌊height⌋` the layers `0..15` hold `Grass`
exactly at `y = m`, `Dirt` at `y ∈ {m-2, m-1}`, `Stone` below, and `Air`
above; in the worked example `world_x = world_z = 0`, where the height
is exactly 5, the column has grass at `y = 5`, dirt at `y = 3..4` and
stone at `y = 0..2` (not grass at 4, dirt at 2..3, stone at 0..1 as the
spec works it). -/
theorem world_new_terrain (hf : Int → Int → ℚ) :
    ((worldNew hf).chunks.map Chunk.position) =
      [(-1, 0, -1), (-1, 0, 0), (-1, 0, 1), (0, 0, -1), (0, 0, 0), (0, 0, 1),
        (1, 0, -1), (1, 0, 0), (1, 0, 1)] ∧
    (∀ wx wz : Int, -16 ≤ wx → wx ≤ 31 → -16 ≤ wz → wz ≤ 31 →
      ∀ m : Int, m = ⌊hf wx wz⌋ →
      (0 ≤ m → m ≤ 15 → (worldNew hf).get_voxel wx m wz = VoxelType.grass) ∧
      (∀ y : Int, 0 ≤ y → m - 2 ≤ y → y < m → y ≤ 15 →
        (worldNew hf).get_voxel wx y wz = VoxelType.dirt) ∧
      (∀ y : Int, 0 ≤ y → y ≤ m - 3 → y ≤ 15 →
        (worldNew hf).get_voxel wx y wz = VoxelType.stone) ∧
      (∀ y : Int, 0 ≤ y → m < y → y ≤ 15 →
        (worldNew hf).get_voxel wx y wz = VoxelType.air)) ∧
    (hf 0 0 = 5 →
      (worldNew hf).get_voxel 0 5 0 = VoxelType.grass ∧
      (worldNew hf).get_voxel 0 4 0 = VoxelType.dirt ∧
      (worldNew hf).get_voxel 0 3 0 = VoxelType.dirt ∧
      (worldNew hf).get_voxel 0 2 0 = VoxelType.stone ∧
      (worldNew hf).get_voxel 0 1 0 = VoxelType.stone ∧
      (worldNew hf).get_voxel 0 0 0 = VoxelType.stone) := by
  have hpos : ((worldNew hf).chunks.map Chunk.position) =
      [(-1, 0, -1), (-1, 0, 0), (-1, 0, 1), (0, 0, -1), (0, 0, 0), (0, 0, 1),
        (1, 0, -1), (1, 0, 0), (1, 0, 1)] := by
    rw [worldNew_chunks]
    simp [genChunk_position]
  have hcol : ∀ wx wz : Int, -16 ≤ wx → wx ≤ 31 → -16 ≤ wz → wz ≤ 31 →
      ∀ m : Int, m = ⌊hf wx wz⌋ →
      (0 ≤ m → m ≤ 15 → (worldNew hf).get_voxel wx m wz = VoxelType.grass) ∧
      (∀ y : Int, 0 ≤ y → m - 2 ≤ y → y < m → y ≤ 15 →
        (worldNew hf).get_voxel wx y wz = VoxelType.dirt) ∧
      (∀ y : Int, 0 ≤ y → y ≤ m - 3 → y ≤ 15 →
        (worldNew hf).get_voxel wx y wz = VoxelType.stone) ∧
      (∀ y : Int, 0 ≤ y → m < y → y ≤ 15 →
        (worldNew hf).get_voxel wx y wz = VoxelType.air) := by
    intro wx wz hwx0 hwx1 hwz0 hwz1 m hm
    have hget : ∀ y : Int, 0 ≤ y → y ≤ 15 →
        (worldNew hf).get_voxel wx y wz =
          (columnVoxel (hf wx wz) y.toNat).voxel_type := by
      intro y hy0 hy1
      exact worldNew_get hf wx y wz hwx0 hwx1 hy0 hy1 hwz0 hwz1
    refine ⟨?_, ?_, ?_, ?_⟩
    · intro hm0 hm15
      rw [hget m hm0 hm15, columnVoxel_eq]
      rw [if_neg (by omega), if_pos (by omega)]
    · intro y hy0 hy1 hy2 hy3
      rw [hget y hy0 hy3, columnVoxel_eq]
      rw [if_neg (by omega), if_neg (by omega), if_pos (by omega)]
    · intro y hy0 hy1 hy2
      rw [hget y hy0 hy2, columnVoxel_eq]
      rw [if_neg (by omega), if_neg (by omega), if_neg (by omega)]
    · intro y hy0 hy1 hy2
      rw [hget y hy0 hy2, columnVoxel_eq]
      rw [if_pos (by omega)]
  refine ⟨hpos, hcol, ?_⟩
  intro h5
  have hm : (5 : Int) = ⌊hf 0 0⌋ := by
    rw [h5]
    norm_num
  obtain ⟨hgrass, hdirt, hstone, _⟩ :=
    hcol 0 0 (by omega) (by omega) (by omega) (by omega) 5 hm
  exact ⟨hgrass (by omega) (by omega),
    hdirt 4 (by omega) (by omega) (by omega) (by omega),
    hdirt 3 (by omega) (by omega) (by omega) (by omega),
    hstone 2 (by omega) (by omega) (by omega),
    hstone 1 (by omega) (by omega) (by omega),
    hstone 0 (by omega) (by omega) (by omega)⟩

/-- Witness for C4's amended theorem at the constant height oracle 5:
chunk positions, the grass layer of column (1, 2), and the worked
example at (0, 0). -/
theorem world_new_terrain_witness :
    ((worldNew (fun _ _ => (5 : ℚ))).chunks.map Chunk.position) =
      [(-1, 0, -1), (-1, 0, 0), (-1, 0, 1), (0, 0, -1), (0, 0, 0), (0, 0, 1),
        (1, 0, -1), (1, 0, 0), (1, 0, 1)] ∧
    (worldNew (fun _ _ => (5 : ℚ))).get_voxel 1 5 2 = VoxelType.grass ∧
    (worldNew (fun _ _ => (5 : ℚ))).get_voxel 0 5 0 = VoxelType.grass ∧
    (worldNew (fun _ _ => (5 : ℚ))).get_voxel 0 4 0 = VoxelType.dirt := by
  have h := world_new_terrain (fun _ _ => (5 : ℚ))
  refine ⟨h.1, ?_, (h.2.2 rfl).1, (h.2.2 rfl).2.1⟩
  have hm : (5 : Int) = ⌊(5 : ℚ)⌋ := by norm_num
  exact ((h.2.1 1 2 (by omega) (by omega) (by omega) (by omega) 5 hm).1
    (by omega) (by omega))

/-- C4 counterexample to the spec's worked example: with the height at
column `(0,0)` equal to 5 — which is the exact `f32` value the source
computes there, since `sin 0 = 0` and `cos 0 = 1` exactly, and the
column depends on the oracle only through its value at `(0,0)` — the
voxel at `y = 4` is `Dirt`, not `Grass` as the claim states (the grass
layer is at `y = 5`, because `5 <= height` holds at height 5). -/
theorem world_new_worked_example_counterexample :
    (worldNew (fun _ _ => (5 : ℚ))).get_voxel 0 4 0 = VoxelType.dirt ∧
    VoxelType.dirt ≠ VoxelType.grass := by
  constructor
  · rw [worldNew_get (fun _ _ => (5 : ℚ)) 0 4 0 (by omega) (by omega)
      (by omega) (by omega) (by omega) (by omega), columnVoxel_eq]
    norm_num
  · decide

/-! ## Ray-cast block editor (`src/main.rs` lines 569–641)

The march samples `camera.position + camera.front * t` for
`t = 0, 0.05, ...` while `t < 10.0`, rounding each sample to integer
block coordinates.  The `f32` sampling is abstracted as the list of
rounded integer coordinate triples the march visits, in order; the loop
bodies below are the source's, with the `hit` flag (and, for Place, the
`last_empty_pos` register) carried explicitly. -/

/-- The editor's chunk-range guard: the derived chunk x/z coordinates
lie in `-1..=1`. -/
def validChunkXZ (p : Int × Int × Int) : Prop :=
  -1 ≤ chunkCoord p.1 ∧ chunkCoord p.1 ≤ 1 ∧
    -1 ≤ chunkCoord p.2.2 ∧ chunkCoord p.2.2 ≤ 1

instance validChunkXZ.decidable (p : Int × Int × Int) :
    Decidable (validChunkXZ p) := by
  unfold validChunkXZ
  infer_instance

/-- One iteration of the Break march over state (world, hit flag). -/
def breakStep (st : World × Bool) (p : Int × Int × Int) : World × Bool :=
  if st.2 then st
  else if validChunkXZ p then
    if st.1.get_voxel p.1 p.2.1 p.2.2 ≠ VoxelType.air then
      (st.1.set_voxel p.1 p.2.1 p.2.2 VoxelType.air, true)
    else st
  else st

/-- The Break action: run the march over the sampled coordinates. -/
def breakRay (w : World) (samples : List (Int × Int × Int)) : World :=
  (samples.foldl breakStep (w, false)).1

/-- One iteration of the Place march over state
(world, hit flag, last empty position). -/
def placeStep (b : VoxelType) (st : World × Bool × Option (Int × Int × Int))
    (p : Int × Int × Int) : World × Bool × Option (Int × Int × Int) :=
  if st.2.1 then st
  else if validChunkXZ p then
    if st.1.get_voxel p.1 p.2.1 p.2.2 ≠ VoxelType.air then
      match st.2.2 with
      | some q => (st.1.set_voxel q.1 q.2.1 q.2.2 b, true, st.2.2)
      | none => st
    else (st.1, st.2.1, some p)
  else st

/-- The Place action: run the march over the sampled coordinates with
the selected block type. -/
def placeRay (w : World) (b : VoxelType) (samples : List (Int × Int × Int)) :
    World :=
  (samples.foldl (placeStep b) (w, false, none)).1

/-- The coordinate Place writes to: the last sampled in-range `Air`
coordinate at the moment the march first meets an in-range non-`Air`
coordinate while such an empty coordinate is remembered. -/
def findPlaceTarget (w : World) :
    List (Int × Int × Int) → Option (Int × Int × Int) → Option (Int × Int × Int)
  | [], _ => none
  | p :: rest, le =>
    if validChunkXZ p then
      if w.get_voxel p.1 p.2.1 p.2.2 ≠ VoxelType.air then
        match le with
        | some q => some q
        | none => findPlaceTarget w rest le
      else findPlaceTarget w rest (some p)
    else findPlaceTarget w rest le

theorem breakFold_true (w' : World) :
    ∀ samples : List (Int × Int × Int),
      samples.foldl breakStep (w', true) = (w', true)
  | [] => rfl
  | p :: rest => by
    rw [List.foldl_cons]
    have hstep : breakStep (w', true) p = (w', true) := rfl
    rw [hstep]
    exact breakFold_true w' rest

theorem placeFold_true (b : VoxelType) (w' : World)
    (le : Option (Int × Int × Int)) :
    ∀ samples : List (Int × Int × Int),
      samples.foldl (placeStep b) (w', true, le) = (w', true, le)
  | [] => rfl
  | p :: rest => by
    rw [List.foldl_cons]
    have hstep : placeStep b (w', true, le) p = (w', true, le) := rfl
    rw [hstep]
    exact placeFold_true b w' le rest

theorem breakFold_spec (w : World) : ∀ samples : List (Int × Int × Int),
    (samples.foldl breakStep (w, false)).1 =
      match samples.find? (fun p => decide (validChunkXZ p ∧
          w.get_voxel p.1 p.2.1 p.2.2 ≠ VoxelType.air)) with
      | some p => w.set_voxel p.1 p.2.1 p.2.2 VoxelType.air
      | none => w
  | [] => rfl
  | p :: rest => by
    rw [List.foldl_cons, List.find?_cons]
    by_cases hv : validChunkXZ p
    · by_cases hair : w.get_voxel p.1 p.2.1 p.2.2 = VoxelType.air
      · have hstep : breakStep (w, false) p = (w, false) := by
          simp [breakStep, hv, hair]
        have hpred : decide (validChunkXZ p ∧
            w.get_voxel p.1 p.2.1 p.2.2 ≠ VoxelType.air) = false := by
          simp [hair]
        rw [hstep, hpred]
        exact breakFold_spec w rest
      · have hstep : breakStep (w, false) p =
            (w.set_voxel p.1 p.2.1 p.2.2 VoxelType.air, true) := by
          simp [breakStep, hv, hair]
        have hpred : decide (validChunkXZ p ∧
            w.get_voxel p.1 p.2.1 p.2.2 ≠ VoxelType.air) = true := by
          simp [hv, hair]
        rw [hstep, breakFold_true, hpred]
    · have hstep : breakStep (w, false) p = (w, false) := by
        simp [breakStep, hv]
      have hpred : decide (validChunkXZ p ∧
          w.get_voxel p.1 p.2.1 p.2.2 ≠ VoxelType.air) = false := by
        simp [hv]
      rw [hstep, hpred]
      exact breakFold_spec w rest

theorem placeFold_spec (w : World) (b : VoxelType) :
    ∀ (samples : List (Int × Int × Int)) (le : Option (Int × Int × Int)),
    (samples.foldl (placeStep b) (w, false, le)).1 =
      match findPlaceTarget w samples le with
      | some q => w.set_voxel q.1 q.2.1 q.2.2 b
      | none => w
  | [], le => rfl
  | p :: rest, le => by
    rw [List.foldl_cons]
    show _ = match (if validChunkXZ p then
        if w.get_voxel p.1 p.2.1 p.2.2 ≠ VoxelType.air then
          match le with
          | some q => some q
          | none => findPlaceTarget w rest le
        else findPlaceTarget w rest (some p)
      else findPlaceTarget w rest le) with
      | some q => w.set_voxel q.1 q.2.1 q.2.2 b
      | none => w
    by_cases hv : validChunkXZ p
    · by_cases hair : w.get_voxel p.1 p.2.1 p.2.2 = VoxelType.air
      · have hstep : placeStep b (w, false, le) p = (w, false, some p) := by
          simp [placeStep, hv, hair]
        rw [hstep, if_pos hv, if_neg (show ¬(w.get_voxel p.1 p.2.1 p.2.2 ≠
          VoxelType.air) from fun hc => hc hair)]
        exact placeFold_spec w b rest (some p)
      · cases le with
        | some q =>
          have hstep : placeStep b (w, false, some q) p =
              (w.set_voxel q.1 q.2.1 q.2.2 b, true, some q) := by
            simp [placeStep, hv, hair]
          rw [hstep, placeFold_true, if_pos hv, if_pos hair]
        | none =>
          have hstep : placeStep b (w, false, none) p = (w, false, none) := by
            simp [placeStep, hv, hair]
          rw [hstep, if_pos hv, if_pos hair]
          exact placeFold_spec w b rest none
    · have hstep : placeStep b (w, false, le) p = (w, false, le) := by
        simp [placeStep, hv]
      rw [hstep, if_neg hv]
      exact placeFold_spec w b rest le

theorem findPlaceTarget_none (w : World) :
    ∀ (samples : List (Int × Int × Int)) (le : Option (Int × Int × Int)),
      (∀ p ∈ samples, validChunkXZ p →
        w.get_voxel p.1 p.2.1 p.2.2 = VoxelType.air) →
      findPlaceTarget w samples le = none
  | [], _, _ => rfl
  | p :: rest, le, h => by
    show (if validChunkXZ p then
        if w.get_voxel p.1 p.2.1 p.2.2 ≠ VoxelType.air then
          match le with
          | some q => some q
          | none => findPlaceTarget w rest le
        else findPlaceTarget w rest (some p)
      else findPlaceTarget w rest le) = none
    by_cases hv : validChunkXZ p
    · rw [if_pos hv, if_neg (show ¬(w.get_voxel p.1 p.2.1 p.2.2 ≠ VoxelType.air)
        from fun hc => hc (h p (List.mem_cons_self _ _) hv))]
      exact findPlaceTarget_none w rest (some p)
        (fun p' hp' => h p' (List.mem_cons_of_mem _ hp'))
    · rw [if_neg hv]
      exact findPlaceTarget_none w rest le
        (fun p' hp' => h p' (List.mem_cons_of_mem _ hp'))

theorem find?_setInChunks_ne (key key' : Int × Int × Int) (lx ly lz : Nat)
    (t : VoxelType) (hne : key' ≠ key) :
    ∀ l : List Chunk,
      (setInChunks key lx ly lz t l).find?
          (fun c : Chunk => decide (c.position = key')) =
        l.find? (fun c : Chunk => decide (c.position = key'))
  | [] => by
    rw [setInChunks, List.find?_cons]
    have hpos : ((Chunk.new key).set_voxel lx ly lz t).position = key := by
      rw [Chunk.position_set_voxel]; rfl
    have hfalse : decide (((Chunk.new key).set_voxel lx ly lz t).position = key')
        = false := by
      rw [hpos]
      exact decide_eq_false (fun hc' => hne hc'.symm)
    rw [hfalse]
  | c :: rest => by
    rw [setInChunks]
    by_cases hc : c.position = key
    · rw [if_pos hc, List.find?_cons, List.find?_cons]
      have hfalse : decide ((c.set_voxel lx ly lz t).position = key') = false := by
        rw [Chunk.position_set_voxel, hc]
        exact decide_eq_false (fun hc' => hne hc'.symm)
      have hfalse' : decide (c.position = key') = false := by
        rw [hc]
        exact decide_eq_false (fun hc' => hne hc'.symm)
      rw [hfalse, hfalse']
    · rw [if_neg hc, List.find?_cons, List.find?_cons]
      cases hd : decide (c.position = key') with
      | true => rfl
      | false => exact find?_setInChunks_ne key key' lx ly lz t hne rest

theorem find?_setInChunks_eq (key : Int × Int × Int) (lx ly lz : Nat)
    (t : VoxelType) :
    ∀ l : List Chunk,
      (setInChunks key lx ly lz t l).find?
          (fun c : Chunk => decide (c.position = key)) =
        some ((match l.find? (fun c : Chunk => decide (c.position = key)) with
          | some c => c
          | none => Chunk.new key).set_voxel lx ly lz t)
  | [] => by
    rw [setInChunks, List.find?_cons]
    have hpos : ((Chunk.new key).set_voxel lx ly lz t).position = key := by
      rw [Chunk.position_set_voxel]; rfl
    have htrue : decide (((Chunk.new key).set_voxel lx ly lz t).position = key)
        = true := by
      rw [hpos]
      exact decide_eq_true rfl
    rw [htrue]
    rfl
  | c :: rest => by
    rw [setInChunks]
    by_cases hc : c.position = key
    · rw [if_pos hc, List.find?_cons, List.find?_cons]
      have htrue : decide ((c.set_voxel lx ly lz t).position = key) = true := by
        rw [Chunk.position_set_voxel]
        exact decide_eq_true hc
      have htrue' : decide (c.position = key) = true := decide_eq_true hc
      rw [htrue, htrue']
    · rw [if_neg hc, List.find?_cons, List.find?_cons]
      have hfalse : decide (c.position = key) = false := decide_eq_false hc
      rw [hfalse]
      exact find?_setInChunks_eq key lx ly lz t rest

theorem Chunk.get_set_voxel_ne (c : Chunk) (lx ly lz : Nat) (t : VoxelType)
    (lx' ly' lz' : Nat) (hx' : lx' < 16) (hy' : ly' < 16) (hz' : lz' < 16)
    (hdiff : (lx', ly', lz') ≠ (lx, ly, lz)) :
    (c.set_voxel lx ly lz t).get_voxel lx' ly' lz' = c.get_voxel lx' ly' lz' := by
  unfold Chunk.get_voxel
  rw [if_pos ⟨hx', hy', hz'⟩, if_pos ⟨hx', hy', hz'⟩,
    List.getD_eq_getElem?_getD, List.getD_eq_getElem?_getD]
  by_cases hin : lx < 16 ∧ ly < 16 ∧ lz < 16
  · have hne : ly * 16 * 16 + lz * 16 + lx ≠ ly' * 16 * 16 + lz' * 16 + lx' := by
      intro hidx
      apply hdiff
      have heach : lx' = lx ∧ ly' = ly ∧ lz' = lz := by omega
      rw [heach.1, heach.2.1, heach.2.2]
    rw [Chunk.voxels_set_voxel_ne c lx ly lz t _ hne]
  · unfold Chunk.set_voxel
    rw [if_neg hin]

/-- Mutating one world cell leaves every other cell unchanged: a read
whose derived chunk key or local coordinates differ from the written
ones returns the old value. -/
theorem World.get_voxel_set_voxel_ne (w : World) (x y z : Int) (t : VoxelType)
    (x' y' z' : Int)
    (h : (chunkCoord x', chunkCoord y', chunkCoord z') ≠
        (chunkCoord x, chunkCoord y, chunkCoord z) ∨
      (localCoord x', localCoord y', localCoord z') ≠
        (localCoord x, localCoord y, localCoord z)) :
    (w.set_voxel x y z t).get_voxel x' y' z' = w.get_voxel x' y' z' := by
  by_cases hkey : (chunkCoord x', chunkCoord y', chunkCoord z') =
      (chunkCoord x, chunkCoord y, chunkCoord z)
  · have hloc : (localCoord x', localCoord y', localCoord z') ≠
        (localCoord x, localCoord y, localCoord z) :=
      h.resolve_left (fun hc => hc hkey)
    unfold World.get_voxel World.set_voxel
    simp only
    rw [hkey, find?_setInChunks_eq]
    cases hf : w.chunks.find? (fun c : Chunk => decide (c.position =
        (chunkCoord x, chunkCoord y, chunkCoord z))) with
    | some c =>
      dsimp only
      rw [Chunk.get_set_voxel_ne c _ _ _ t _ _ _ (localCoord_lt x')
        (localCoord_lt y') (localCoord_lt z') hloc]
    | none =>
      dsimp only
      rw [Chunk.get_set_voxel_ne _ _ _ _ t _ _ _ (localCoord_lt x')
        (localCoord_lt y') (localCoord_lt z') hloc]
      unfold Chunk.get_voxel
      rw [if_pos ⟨localCoord_lt x', localCoord_lt y', localCoord_lt z'⟩]
      unfold Chunk.new
      rw [List.getD_eq_getElem?_getD, List.getElem?_replicate,
        if_pos (by
          have h1 := localCoord_lt x'
          have h2 := localCoord_lt y'
          have h3 := localCoord_lt z'
          omega)]
      rfl
  · unfold World.get_voxel World.set_voxel
    simp only
    rw [find?_setInChunks_ne _ _ _ _ _ _ hkey]

/-- C5: a Break event sets to `Air` exactly the first sampled coordinate
that passes the chunk-range guard and holds a non-`Air` voxel, and stops
there; every cell other than the written one is unchanged, and when no
sample qualifies the world is unchanged (the `none` branch). -/
theorem break_ray_first_hit (w : World) (samples : List (Int × Int × Int)) :
    (breakRay w samples =
      match samples.find? (fun p => decide (validChunkXZ p ∧
          w.get_voxel p.1 p.2.1 p.2.2 ≠ VoxelType.air)) with
      | some p => w.set_voxel p.1 p.2.1 p.2.2 VoxelType.air
      | none => w) ∧
    (∀ p : Int × Int × Int,
      samples.find? (fun p => decide (validChunkXZ p ∧
          w.get_voxel p.1 p.2.1 p.2.2 ≠ VoxelType.air)) = some p →
      ∀ q : Int × Int × Int,
        ((chunkCoord q.1, chunkCoord q.2.1, chunkCoord q.2.2) ≠
            (chunkCoord p.1, chunkCoord p.2.1, chunkCoord p.2.2) ∨
          (localCoord q.1, localCoord q.2.1, localCoord q.2.2) ≠
            (localCoord p.1, localCoord p.2.1, localCoord p.2.2)) →
        (breakRay w samples).get_voxel q.1 q.2.1 q.2.2 =
          w.get_voxel q.1 q.2.1 q.2.2) := by
  have h1 : breakRay w samples =
      match samples.find? (fun p => decide (validChunkXZ p ∧
          w.get_voxel p.1 p.2.1 p.2.2 ≠ VoxelType.air)) with
      | some p => w.set_voxel p.1 p.2.1 p.2.2 VoxelType.air
      | none => w :=
    breakFold_spec w samples
  refine ⟨h1, ?_⟩
  intro p hp q hq
  rw [h1, hp]
  exact World.get_voxel_set_voxel_ne w p.1 p.2.1 p.2.2 VoxelType.air
    q.1 q.2.1 q.2.2 hq

/-- Witness for C5 at a one-stone world and a one-sample march: the
sample is the hit, and the neighbouring cell is untouched. -/
theorem break_ray_first_hit_witness :
    ([((0 : Int), (0 : Int), (0 : Int))].find? (fun p =>
      decide (validChunkXZ p ∧
        (({ chunks := [] } : World).set_voxel 0 0 0
            VoxelType.stone).get_voxel p.1 p.2.1 p.2.2 ≠ VoxelType.air)) =
      some (0, 0, 0)) ∧
    ((chunkCoord 1, chunkCoord 0, chunkCoord 0) ≠
      (chunkCoord 0, chunkCoord 0, chunkCoord 0) ∨
      (localCoord 1, localCoord 0, localCoord 0) ≠
        (localCoord 0, localCoord 0, localCoord 0)) ∧
    (breakRay (({ chunks := [] } : World).set_voxel 0 0 0 VoxelType.stone)
        [(0, 0, 0)]).get_voxel 1 0 0 =
      (({ chunks := [] } : World).set_voxel 0 0 0 VoxelType.stone).get_voxel
        1 0 0 := by
  have hp : [((0 : Int), (0 : Int), (0 : Int))].find? (fun p =>
      decide (validChunkXZ p ∧
        (({ chunks := [] } : World).set_voxel 0 0 0
            VoxelType.stone).get_voxel p.1 p.2.1 p.2.2 ≠ VoxelType.air)) =
      some (0, 0, 0) := by decide
  have hq : ((chunkCoord 1, chunkCoord 0, chunkCoord 0) ≠
        (chunkCoord 0, chunkCoord 0, chunkCoord 0) ∨
      (localCoord 1, localCoord 0, localCoord 0) ≠
        (localCoord 0, localCoord 0, localCoord 0)) := by decide
  exact ⟨hp, hq,
    (break_ray_first_hit (({ chunks := [] } : World).set_voxel 0 0 0
      VoxelType.stone) [(0, 0, 0)]).2 (0, 0, 0) hp (1, 0, 0) hq⟩

/-- C6 (amended): a Place event writes the selected type into the last
in-range `Air` coordinate remembered at the moment the march first meets
an in-range non-`Air` coordinate while such an empty coordinate is
remembered, then stops; in-range non-`Air` samples met before any
in-range `Air` sample neither stop the march nor mutate the world; and
when the march exhausts without ever meeting a non-`Air` voxel the world
is not mutated at all. -/
theorem place_ray_spec (w : World) (b : VoxelType)
    (samples : List (Int × Int × Int)) :
    (placeRay w b samples =
      match findPlaceTarget w samples none with
      | some q => w.set_voxel q.1 q.2.1 q.2.2 b
      | none => w) ∧
    ((∀ p ∈ samples, validChunkXZ p →
        w.get_voxel p.1 p.2.1 p.2.2 = VoxelType.air) →
      placeRay w b samples = w) := by
  have h1 : placeRay w b samples =
      match findPlaceTarget w samples none with
      | some q => w.set_voxel q.1 q.2.1 q.2.2 b
      | none => w :=
    placeFold_spec w b samples none
  refine ⟨h1, fun hall => ?_⟩
  rw [h1, findPlaceTarget_none w samples none hall]

/-- Witness for C6 at the empty world: an all-`Air` march places
nothing. -/
theorem place_ray_spec_witness :
    (∀ p ∈ [((0 : Int), (0 : Int), (0 : Int))], validChunkXZ p →
      ({ chunks := [] } : World).get_voxel p.1 p.2.1 p.2.2 = VoxelType.air) ∧
    placeRay { chunks := [] } VoxelType.wood [(0, 0, 0)] = { chunks := [] } := by
  have hall : ∀ p ∈ [((0 : Int), (0 : Int), (0 : Int))], validChunkXZ p →
      ({ chunks := [] } : World).get_voxel p.1 p.2.1 p.2.2 = VoxelType.air :=
    fun p _ _ => rfl
  exact ⟨hall,
    (place_ray_spec { chunks := [] } VoxelType.wood [(0, 0, 0)]).2 hall⟩

/-- C6 counterexample: over a world with stone at `(0,0,0)` and
`(2,0,0)` and air at `(1,0,0)`, the march `[(0,0,0), (1,0,0), (2,0,0)]`
meets the non-`Air` coordinate `(0,0,0)` first — with no empty
coordinate remembered — yet does not stop there: it continues, remembers
`(1,0,0)`, and on the second non-`Air` hit writes the selected block
into `(1,0,0)`, a coordinate sampled after the first non-`Air`
encounter. -/
theorem place_ray_counterexample :
    (placeRay ((({ chunks := [] } : World).set_voxel 0 0 0
          VoxelType.stone).set_voxel 2 0 0 VoxelType.stone)
        VoxelType.wood [(0, 0, 0), (1, 0, 0), (2, 0, 0)]).get_voxel 1 0 0 =
      VoxelType.wood ∧
    ((({ chunks := [] } : World).set_voxel 0 0 0
        VoxelType.stone).set_voxel 2 0 0 VoxelType.stone).get_voxel 0 0 0 =
      VoxelType.stone ∧
    ((({ chunks := [] } : World).set_voxel 0 0 0
        VoxelType.stone).set_voxel 2 0 0 VoxelType.stone).get_voxel 1 0 0 =
      VoxelType.air := by
  refine ⟨?_, ?_, ?_⟩ <;> decide

/-! ## Camera (`src/main.rs` lines 162–258)

Camera state over ℚ (every `f32` value is rational).  The spherical
trigonometric basis recomputation in `process_mouse_movement` (sin/cos
of yaw/pitch, cross products, normalisation) is abstracted as a `basis`
oracle from yaw and pitch to the (front, right, up) triple; the pitch
arithmetic and clamping are the source's, verbatim. -/

/-- 3-component vector. -/
abbrev V3 : Type := ℚ × ℚ × ℚ

/-- 4-component vector. -/
abbrev V4 : Type := ℚ × ℚ × ℚ × ℚ

/-- Camera state. -/
structure Camera : Type where
  position : V3
  front : V3
  up : V3
  right : V3
  yaw : ℚ
  pitch : ℚ
  movement_speed : ℚ
  mouse_sensitivity : ℚ

/-- `Camera::process_mouse_movement`: scale both offsets by the mouse
sensitivity, accumulate into yaw and pitch, clamp pitch to
`[-89, 89]`, then recompute front/right/up from yaw and pitch. -/
def processMouseMovement (basis : ℚ → ℚ → V3 × V3 × V3) (c : Camera)
    (x_offset y_offset : ℚ) : Camera :=
  let x_offset := x_offset * c.mouse_sensitivity
  let y_offset := y_offset * c.mouse_sensitivity
  let yaw := c.yaw + x_offset
  let pitch0 := c.pitch + y_offset
  let pitch1 := if pitch0 > 89 then 89 else pitch0
  let pitch2 := if pitch1 < -89 then -89 else pitch1
  let fru := basis yaw pitch2
  { c with
    yaw := yaw
    pitch := pitch2
    front := fru.1
    right := fru.2.1
    up := fru.2.2 }

theorem processMouseMovement_pitch_bounds (basis : ℚ → ℚ → V3 × V3 × V3)
    (c : Camera) (x_offset y_offset : ℚ) :
    -89 ≤ (processMouseMovement basis c x_offset y_offset).pitch ∧
    (processMouseMovement basis c x_offset y_offset).pitch ≤ 89 := by
  unfold processMouseMovement
  dsimp only
  split_ifs with h1 h2 h3 <;> constructor <;> linarith

/-- C7: for every camera whose pitch lies in `[-89, 89]` and every
sequence of `process_mouse_movement` calls with arbitrary offsets (and
whatever basis recomputation), the pitch after the sequence — hence
after every call, since every prefix is such a sequence — remains in
`[-89, 89]`. -/
theorem camera_pitch_clamped (basis : ℚ → ℚ → V3 × V3 × V3) (c : Camera)
    (h0 : -89 ≤ c.pitch) (h1 : c.pitch ≤ 89) (moves : List (ℚ × ℚ)) :
    -89 ≤ (moves.foldl (fun c m => processMouseMovement basis c m.1 m.2)
        c).pitch ∧
    (moves.foldl (fun c m => processMouseMovement basis c m.1 m.2) c).pitch
      ≤ 89 := by
  revert h0 h1
  induction moves generalizing c with
  | nil =>
    intro h0 h1
    exact ⟨h0, h1⟩
  | cons m rest ih =>
    intro _ _
    rw [List.foldl_cons]
    exact ih _ (processMouseMovement_pitch_bounds basis c m.1 m.2).1
      (processMouseMovement_pitch_bounds basis c m.1 m.2).2

/-- Witness for C7 at a concrete camera and a two-call sequence with
huge offsets. -/
theorem camera_pitch_clamped_witness :
    (-89 ≤ (0 : ℚ) ∧ (0 : ℚ) ≤ 89) ∧
    (-89 ≤ (([((0 : ℚ), (1000000 : ℚ)), ((0 : ℚ), (-99999 : ℚ))]).foldl
        (fun c m => processMouseMovement (fun _ _ => ((0, 0, 0), (0, 0, 0),
          (0, 0, 0))) c m.1 m.2)
        { position := (0, 0, 0), front := (0, 0, 0), up := (0, 0, 0),
          right := (0, 0, 0), yaw := 0, pitch := 0, movement_speed := 2,
          mouse_sensitivity := 1 }).pitch ∧
      (([((0 : ℚ), (1000000 : ℚ)), ((0 : ℚ), (-99999 : ℚ))]).foldl
        (fun c m => processMouseMovement (fun _ _ => ((0, 0, 0), (0, 0, 0),
          (0, 0, 0))) c m.1 m.2)
        { position := (0, 0, 0), front := (0, 0, 0), up := (0, 0, 0),
          right := (0, 0, 0), yaw := 0, pitch := 0, movement_speed := 2,
          mouse_sensitivity := 1 }).pitch ≤ 89) := by
  constructor
  · constructor <;> norm_num
  · exact camera_pitch_clamped _ _ (by norm_num) (by norm_num) _

/-! ## `Camera::get_view_matrix` (`src/main.rs` lines 243–258)

The source builds a matrix with `glm::Mat4::new(v0, v1, v2, v3)`.  In
the `glm` crate (as in GLSL) the `mat4` constructor takes the four
COLUMN vectors, so `v0 = (r.x, r.y, r.z, -dot(r, pos))` becomes the
first column, not the first row.  Normalisation (which divides by an
`f32` square root) is abstracted as the oracle `nrm`; on the unit axis
vectors used in the evidence below IEEE normalisation returns its
argument exactly, so the identity oracle models the code there. -/

/-- `glm::cross`. -/
def cross (a b : V3) : V3 :=
  (a.2.1 * b.2.2 - a.2.2 * b.2.1,
   a.2.2 * b.1 - a.1 * b.2.2,
   a.1 * b.2.1 - a.2.1 * b.1)

/-- `glm::dot`. -/
def dot (a b : V3) : ℚ :=
  a.1 * b.1 + a.2.1 * b.2.1 + a.2.2 * b.2.2

/-- `glm::Mat4`: four column vectors. -/
structure Mat4 : Type where
  c0 : V4
  c1 : V4
  c2 : V4
  c3 : V4

/-- Component `row` of a 4-vector (0 outside `0..3`). -/
def V4.comp (v : V4) (row : Nat) : ℚ :=
  match row with
  | 0 => v.1
  | 1 => v.2.1
  | 2 => v.2.2.1
  | 3 => v.2.2.2
  | _ + 4 => 0

/-- Entry of a `Mat4` at (row, column); columns are the stored vectors. -/
def Mat4.entry (m : Mat4) (row col : Nat) : ℚ :=
  match col with
  | 0 => m.c0.comp row
  | 1 => m.c1.comp row
  | 2 => m.c2.comp row
  | 3 => m.c3.comp row
  | _ + 4 => 0

/-- `Camera::get_view_matrix`: recompute f/r/u from the front vector and
build the matrix by passing the four displayed vectors to
`Mat4::new` — which stores them as columns. -/
def getViewMatrix (nrm : V3 → V3) (c : Camera) : Mat4 :=
  let f := nrm c.front
  let r := nrm (cross f (0, 1, 0))
  let u := cross r f
  { c0 := (r.1, r.2.1, r.2.2, -(dot r c.position))
    c1 := (u.1, u.2.1, u.2.2, -(dot u c.position))
    c2 := (-f.1, -f.2.1, -f.2.2, dot f c.position)
    c3 := (0, 0, 0, 1) }

/-- Modelled from the spec: the canonical right-handed look-at matrix —
"standard camera-space basis rows plus translation via negative dot
products" — built from the same front-derived basis and position. -/
def lookAtCanonical (nrm : V3 → V3) (c : Camera) (row col : Nat) : ℚ :=
  let f := nrm c.front
  let r := nrm (cross f (0, 1, 0))
  let u := cross r f
  match row with
  | 0 => V4.comp (r.1, r.2.1, r.2.2, -(dot r c.position)) col
  | 1 => V4.comp (u.1, u.2.1, u.2.2, -(dot u c.position)) col
  | 2 => V4.comp (-f.1, -f.2.1, -f.2.2, dot f c.position) col
  | 3 => V4.comp (0, 0, 0, 1) col
  | _ + 4 => 0

/-- C9: evidence that `get_view_matrix` does NOT equal the canonical
look-at construction: at camera position `(1,2,3)` with front
`(0,0,-1)` (where both normalisation inputs are exact unit axis vectors,
so the identity oracle is the code's normalisation), the code's entry at
row 0, column 3 is `0` while the canonical matrix has `-1` there, and
the code's entry at row 3, column 0 is `-1` while the canonical matrix
has `0`: `Mat4::new` received the row vectors as columns, producing the
transpose of the canonical look-at matrix. -/
theorem view_matrix_transposed_bug :
    Mat4.entry (getViewMatrix (fun v => v)
      { position := (1, 2, 3), front := (0, 0, -1), up := (0, 1, 0),
        right := (1, 0, 0), yaw := -90, pitch := 0, movement_speed := 2,
        mouse_sensitivity := 1 / 10 }) 0 3 = 0 ∧
    lookAtCanonical (fun v => v)
      { position := (1, 2, 3), front := (0, 0, -1), up := (0, 1, 0),
        right := (1, 0, 0), yaw := -90, pitch := 0, movement_speed := 2,
        mouse_sensitivity := 1 / 10 } 0 3 = -1 ∧
    Mat4.entry (getViewMatrix (fun v => v)
      { position := (1, 2, 3), front := (0, 0, -1), up := (0, 1, 0),
        right := (1, 0, 0), yaw := -90, pitch := 0, movement_speed := 2,
        mouse_sensitivity := 1 / 10 }) 3 0 = -1 ∧
    lookAtCanonical (fun v => v)
      { position := (1, 2, 3), front := (0, 0, -1), up := (0, 1, 0),
        right := (1, 0, 0), yaw := -90, pitch := 0, movement_speed := 2,
        mouse_sensitivity := 1 / 10 } 3 0 = 0 := by
  refine ⟨?_, ?_, ?_, ?_⟩ <;>
    norm_num [Mat4.entry, getViewMatrix, lookAtCanonical, cross, dot, V4.comp]

theorem roundF32nat_big {n : Nat} (h : 2 ^ 24 ≤ n) :
    2 ^ 24 ≤ roundF32nat n := by
  unfold roundF32nat
  rw [if_neg (Nat.not_lt.mpr h)]
  dsimp only
  have hspec := log2fuel_spec n n (le_refl n) (by omega)
  have hL : 24 ≤ log2fuel n n := by
    by_contra hc
    push_neg at hc
    have h2 : 2 ^ (log2fuel n n + 1) ≤ 2 ^ 24 :=
      Nat.pow_le_pow_right (by omega) (by omega)
    omega
  have hk1 : 1 ≤ log2fuel n n - 23 := by omega
  have hq : 2 ^ 23 ≤ n / 2 ^ (log2fuel n n - 23) := by
    have h1 : 2 ^ log2fuel n n / 2 ^ (log2fuel n n - 23) ≤
        n / 2 ^ (log2fuel n n - 23) := Nat.div_le_div_right hspec.1
    have h2 : 2 ^ log2fuel n n / 2 ^ (log2fuel n n - 23) = 2 ^ 23 := by
      rw [Nat.pow_div (by omega) (by omega)]
      congr 1
      omega
    omega
  have h2k : 2 ≤ 2 ^ (log2fuel n n - 23) := by
    calc (2 : Nat) = 2 ^ 1 := rfl
      _ ≤ 2 ^ (log2fuel n n - 23) := Nat.pow_le_pow_right (by omega) hk1
  have hmul : 2 ^ 23 * 2 ≤ n / 2 ^ (log2fuel n n - 23) *
      2 ^ (log2fuel n n - 23) := Nat.mul_le_mul hq h2k
  have hmul2 : n / 2 ^ (log2fuel n n - 23) * 2 ^ (log2fuel n n - 23) ≤
      (n / 2 ^ (log2fuel n n - 23) + 1) * 2 ^ (log2fuel n n - 23) :=
    Nat.mul_le_mul_right _ (by omega)
  have h2324 : (2 : Nat) ^ 24 = 2 ^ 23 * 2 := by norm_num
  split <;> omega

theorem roundF32nat_ge {m n : Nat} (hm : m ≤ 2 ^ 24) (h : m ≤ n) :
    m ≤ roundF32nat n := by
  rcases le_or_lt n (2 ^ 24) with h' | h'
  · rw [roundF32nat_small h']
    exact h
  · have := roundF32nat_big (n := n) (by omega)
    omega

theorem chunkCoord_ne_zero {y : Int} (h : y < 0 ∨ 16 ≤ y) :
    chunkCoord y ≠ 0 := by
  unfold chunkCoord satI32
  rcases h with h | h
  · have h2 : 1 ≤ roundF32nat y.natAbs :=
      roundF32nat_ge (by norm_num) (by omega)
    have h3 : roundF32 y ≤ -1 := by
      unfold roundF32
      rw [if_pos h]
      omega
    have h4 : (roundF32 y).fdiv 16 ≤ -1 := by
      rw [Int.fdiv_eq_ediv _ (by decide)]
      omega
    omega
  · have h2 : 16 ≤ roundF32nat y.natAbs :=
      roundF32nat_ge (by norm_num) (by omega)
    have h3 : 16 ≤ roundF32 y := by
      unfold roundF32
      rw [if_neg (by omega)]
      omega
    have h4 : 1 ≤ (roundF32 y).fdiv 16 := by
      rw [Int.fdiv_eq_ediv _ (by decide)]
      omega
    omega

theorem setInChunks_key_mem (key : Int × Int × Int) (lx ly lz : Nat)
    (t : VoxelType) :
    ∀ l : List Chunk, ∃ c ∈ setInChunks key lx ly lz t l, c.position = key
  | [] =>
    ⟨(Chunk.new key).set_voxel lx ly lz t, List.mem_singleton.mpr rfl, by
      rw [Chunk.position_set_voxel]; rfl⟩
  | c :: rest => by
    by_cases hc : c.position = key
    · refine ⟨c.set_voxel lx ly lz t, ?_, ?_⟩
      · rw [setInChunks, if_pos hc]
        exact List.mem_cons_self _ _
      · rw [Chunk.position_set_voxel]
        exact hc
    · obtain ⟨c', hm, hp⟩ := setInChunks_key_mem key lx ly lz t rest
      refine ⟨c', ?_, hp⟩
      rw [setInChunks, if_neg hc]
      exact List.mem_cons_of_mem _ hm

theorem gpuBuffer_last_chunk (l₁ : List Chunk) (c : Chunk) (w : World)
    (hw : w.chunks = l₁ ++ [c]) (lx ly lz : Nat)
    (hx : lx < 16) (hy : ly < 16) (hz : lz < 16) (hslot : chunkSlot c ≤ 8) :
    (gpuBuffer w)[chunkSlot c * (16 * 16 * 16) + (lx + ly * 16 + lz * 16 * 16)]? =
      some (encodeVoxel (c.get_voxel lx ly lz).voxel_type) := by
  unfold gpuBuffer
  rw [hw]
  exact foldl_obs_last
    (fun l : List Int =>
      l[chunkSlot c * (16 * 16 * 16) + (lx + ly * 16 + lz * 16 * 16)]?)
    (fun l : List Int => l.length = 3 * 3 * 16 * 16 * 16) fillChunk l₁ c [] _
    (fun s b hb => by dsimp only; rw [fillChunk_length]; exact hb)
    (fun s hs => fillChunk_getElem?_eq s c lx ly lz hx hy hz hs hslot)
    (fun s b hb => absurd hb (List.not_mem_nil b))
    _ (List.length_replicate _ _)

/-- C10: `World::set_voxel` at a world `y` outside `[0, 16)` creates and
retains a chunk whose `position.y` is not 0; the per-frame buffer slot
is computed from `position.x` and `position.z` only; and a Place event
(whose guard never checks the chunk y coordinate) exhibits the aliasing:
after placing into `(0, 16, 0)` over a world with stone at the origin,
the world holds chunks at `(0,0,0)` and `(0,1,0)`, and buffer element
`16384` — stone (3) before the edit — now holds the placed block (4,
Wood), because the later `(0,1,0)` chunk overwrites the earlier
`(0,0,0)` chunk's region. -/
theorem y_escape_buffer_aliasing :
    (∀ (w : World) (x z : Int) (t : VoxelType) (y : Int), y < 0 ∨ 16 ≤ y →
      (∃ c ∈ (w.set_voxel x y z t).chunks,
        c.position = (chunkCoord x, chunkCoord y, chunkCoord z)) ∧
      chunkCoord y ≠ 0) ∧
    (∀ (voxels : List Voxel) (px py py' pz : Int),
      chunkSlot { voxels := voxels, position := (px, py, pz) } =
        chunkSlot { voxels := voxels, position := (px, py', pz) }) ∧
    ((placeRay (({ chunks := [] } : World).set_voxel 0 0 0 VoxelType.stone)
        VoxelType.wood [(0, 16, 0), (0, 0, 0)]).chunks.map Chunk.position =
      [(0, 0, 0), (0, 1, 0)]) ∧
    (gpuBuffer (({ chunks := [] } : World).set_voxel 0 0 0
        VoxelType.stone))[16384]? = some 3 ∧
    (gpuBuffer (placeRay (({ chunks := [] } : World).set_voxel 0 0 0
        VoxelType.stone) VoxelType.wood [(0, 16, 0), (0, 0, 0)]))[16384]? =
      some 4 := by
  refine ⟨?_, ?_, ?_, ?_, ?_⟩
  · intro w x z t y hy
    constructor
    · exact setInChunks_key_mem _ _ _ _ t w.chunks
    · exact chunkCoord_ne_zero hy
  · intro voxels px py py' pz
    rfl
  · decide
  · have h := gpuBuffer_last_chunk []
      ((Chunk.new (0, 0, 0)).set_voxel 0 0 0 VoxelType.stone)
      (({ chunks := [] } : World).set_voxel 0 0 0 VoxelType.stone)
      rfl 0 0 0 (by decide) (by decide) (by decide) (by decide)
    have hslot : chunkSlot ((Chunk.new (0, 0, 0)).set_voxel 0 0 0
        VoxelType.stone) = 4 := by decide
    rw [hslot] at h
    have hidx : (4 * (16 * 16 * 16) + (0 + 0 * 16 + 0 * 16 * 16) : Nat)
        = 16384 := by norm_num
    rw [hidx] at h
    rw [h]
    rfl
  · have h := gpuBuffer_last_chunk
      [(Chunk.new (0, 0, 0)).set_voxel 0 0 0 VoxelType.stone]
      ((Chunk.new (0, 1, 0)).set_voxel 0 0 0 VoxelType.wood)
      (placeRay (({ chunks := [] } : World).set_voxel 0 0 0 VoxelType.stone)
        VoxelType.wood [(0, 16, 0), (0, 0, 0)])
      rfl 0 0 0 (by decide) (by decide) (by decide) (by decide)
    have hslot : chunkSlot ((Chunk.new (0, 1, 0)).set_voxel 0 0 0
        VoxelType.wood) = 4 := by decide
    rw [hslot] at h
    have hidx : (4 * (16 * 16 * 16) + (0 + 0 * 16 + 0 * 16 * 16) : Nat)
        = 16384 := by norm_num
    rw [hidx] at h
    rw [h]
    rfl

/-- Witness for C10's universally quantified part at the empty world,
`y = 16`. -/
theorem y_escape_buffer_aliasing_witness :
    ((16 : Int) < 0 ∨ 16 ≤ (16 : Int)) ∧
    ((∃ c ∈ (({ chunks := [] } : World).set_voxel 0 16 0
        VoxelType.stone).chunks,
      c.position = (chunkCoord 0, chunkCoord 16, chunkCoord 0)) ∧
      chunkCoord 16 ≠ 0) :=
  ⟨Or.inr (by norm_num),
    y_escape_buffer_aliasing.1 { chunks := [] } 0 0 VoxelType.stone 16
      (Or.inr (by norm_num))⟩

end VoxelGame
